import Mathlib

/-!
# Ray tracer: tile scheduler, ray-sphere intersection, closest hit and shading

A shallow embedding of `raytracing_gpu/raytrace.h` and `raytracing_gpu/raytrace.cpp`.

Conventions of the embedding.

* `float` is idealised as a linearly ordered field `F` with a floor function; the
  square root `std::sqrt` is passed to every function that uses it as the
  argument `sqrt`.  All definitions are computable for a computable `F` (for
  instance `ℚ`); the theorems that need the defining property of the square root
  are stated for `ℝ` and `Real.sqrt`.
* `unsigned` is a natural number below `2 ^ 32`; the operations wrap modulo
  `2 ^ 32` (`uadd`, `usub`, `umul`), and an unsigned division by zero has no
  result (`udiv` returns `none`).
* `raytrace.cpp` names the hit fields `t`, `pos`, `norm` and the light field
  `color`; `raytrace.h` names them `distance`, `position`, `normal` and
  `intensity`.  The header's names are used.
* A function with an output parameter `Hit& hitData` takes the old value of the
  parameter and returns the pair of the returned `bool` and the new value.
* A pixel write `image(x, y, c) = v` is recorded as an entry of a write log; the
  image buffer is the function from coordinates to pixels that the log, applied in
  order, produces.
-/

namespace RayTrace

/-! ## glm::vec3 -/

/-- The type `glm::vec3` over the scalar type `F`. -/
structure Vec3 (F : Type) where
  x : F
  y : F
  z : F
deriving DecidableEq, Repr

namespace Vec3

variable {F : Type} [LinearOrderedField F]

/-- Componentwise `a + b`. -/
def add (a b : Vec3 F) : Vec3 F := ⟨a.x + b.x, a.y + b.y, a.z + b.z⟩

/-- Componentwise `a - b`. -/
def sub (a b : Vec3 F) : Vec3 F := ⟨a.x - b.x, a.y - b.y, a.z - b.z⟩

/-- Scalar times vector, `k * v`. -/
def smul (k : F) (v : Vec3 F) : Vec3 F := ⟨k * v.x, k * v.y, k * v.z⟩

/-- Componentwise product `a * b` of two vectors. -/
def mul (a b : Vec3 F) : Vec3 F := ⟨a.x * b.x, a.y * b.y, a.z * b.z⟩

/-- The function `glm::dot`. -/
def dot (a b : Vec3 F) : F := a.x * b.x + a.y * b.y + a.z * b.z

/-- The function `glm::normalize`: `v * inversesqrt(dot(v, v))`. -/
def normalize (sqrt : F → F) (v : Vec3 F) : Vec3 F := smul (1 / sqrt (dot v v)) v

/-- Scalar `glm::clamp(x, lo, hi) = min(max(x, lo), hi)`. -/
def clampScalar (v lo hi : F) : F := min (max v lo) hi

/-- The function `glm::clamp(v, lo, hi)` on a vector with scalar bounds. -/
def clamp (v : Vec3 F) (lo hi : F) : Vec3 F :=
  ⟨clampScalar v.x lo hi, clampScalar v.y lo hi, clampScalar v.z lo hi⟩

/-- The vector `glm::vec3(k)` with all components equal to `k`. -/
def splat (k : F) : Vec3 F := ⟨k, k, k⟩

end Vec3

/-! ## raytrace.h -/

/-- The struct `Ray`. -/
structure Ray (F : Type) where
  origin : Vec3 F
  direction : Vec3 F
  bounce : Nat
deriving DecidableEq, Repr

/-- The class `Sphere`. -/
structure Sphere (F : Type) where
  radius : F
  center : Vec3 F
  surfaceColor : Vec3 F
deriving DecidableEq, Repr

/-- The struct `Hit`; `object` is the pointer to the sphere that was hit. -/
structure Hit (F : Type) where
  object : Option (Sphere F)
  position : Vec3 F
  ray : Ray F
  distance : F
  normal : Vec3 F
  color : Vec3 F
deriving DecidableEq, Repr

/-- The struct `Light`. -/
structure Light (F : Type) where
  position : Vec3 F
  intensity : Vec3 F
deriving DecidableEq, Repr

section Intersect

variable {F : Type} [LinearOrderedField F]

/-- The local `discriminant` of both `Sphere::intersect` overloads. -/
def Sphere.discriminant (s : Sphere F) (ray : Ray F) : F :=
  let oc := Vec3.sub ray.origin s.center
  let b := Vec3.dot oc ray.direction
  let closestPoint := Vec3.sub oc (Vec3.smul b ray.direction)
  s.radius * s.radius - Vec3.dot closestPoint closestPoint

/-- The local `t0` of both `Sphere::intersect` overloads. -/
def Sphere.t0 (sqrt : F → F) (s : Sphere F) (ray : Ray F) : F :=
  let oc := Vec3.sub ray.origin s.center
  let b := Vec3.dot oc ray.direction
  let t0 := -b - sqrt (s.discriminant ray)
  t0

/-- The local `t1` of both `Sphere::intersect` overloads. -/
def Sphere.t1 (sqrt : F → F) (s : Sphere F) (ray : Ray F) : F :=
  let oc := Vec3.sub ray.origin s.center
  let b := Vec3.dot oc ray.direction
  let t1 := -b + sqrt (s.discriminant ray)
  t1

/-- The method `Sphere::intersect(const Ray&, Hit&)`: the returned flag and the
value of `hitData` afterwards. -/
def Sphere.intersect (sqrt : F → F) (s : Sphere F) (ray : Ray F) (hitData : Hit F) :
    Bool × Hit F :=
  let oc := Vec3.sub ray.origin s.center
  let b := Vec3.dot oc ray.direction
  let closestPoint := Vec3.sub oc (Vec3.smul b ray.direction)
  let discriminant := s.radius * s.radius - Vec3.dot closestPoint closestPoint
  if discriminant < 0 then (false, hitData)
  else
    let sqrtDisc := sqrt discriminant
    let t0 := -b - sqrtDisc
    let t1 := -b + sqrtDisc
    if t0 < 0 ∨ t1 < 0 then (false, hitData)
    else
      let position := Vec3.add ray.origin (Vec3.smul t0 ray.direction)
      (true,
        { hitData with
          position := position
          color := s.surfaceColor
          object := some s
          normal := Vec3.normalize sqrt (Vec3.sub position s.center)
          distance := t0 })

/-- The method `Sphere::intersect(const Ray&, float maxDistance)`. -/
def Sphere.intersectMax (sqrt : F → F) (s : Sphere F) (ray : Ray F) (maxDistance : F) : Bool :=
  let oc := Vec3.sub ray.origin s.center
  let b := Vec3.dot oc ray.direction
  let closestPoint := Vec3.sub oc (Vec3.smul b ray.direction)
  let discriminant := s.radius * s.radius - Vec3.dot closestPoint closestPoint
  if discriminant < 0 then false
  else
    let sqrtDisc := sqrt discriminant
    let t0 := -b - sqrtDisc
    let t1 := -b + sqrtDisc
    decide ((t0 ≥ 0 ∧ t0 ≤ maxDistance) ∨ (t1 ≥ 0 ∧ t1 ≤ maxDistance))

end Intersect

/-! ## unsigned arithmetic -/

/-- The modulus `2 ^ 32` of the type `unsigned`. -/
def UINT_MOD : Nat := 4294967296

/-- Addition of two `unsigned` values. -/
def uadd (a b : Nat) : Nat := (a + b) % UINT_MOD

/-- Subtraction of two `unsigned` values. -/
def usub (a b : Nat) : Nat := (a + (UINT_MOD - b % UINT_MOD)) % UINT_MOD

/-- Multiplication of two `unsigned` values. -/
def umul (a b : Nat) : Nat := (a * b) % UINT_MOD

/-- Division of two `unsigned` values; dividing by zero has no result. -/
def udiv (a b : Nat) : Option Nat := if b = 0 then none else some (a / b)

/-! ## raytrace.cpp -/

/-- The interface of `tira::camera` that the renderer uses: `position()` and
`ray(fx, fy)`. -/
structure Camera (F : Type) where
  position : Vec3 F
  ray : F → F → Vec3 F

/-- The globals `Camera`, `Background`, `Objects` and `Lights`. -/
structure Scene (F : Type) where
  camera : Camera F
  background : Vec3 F
  objects : List (Sphere F)
  lights : List (Light F)

/-- One pixel of the image: the three `unsigned char` channels.  A channel is
`none` when the converted value is not representable in `unsigned char`. -/
structure Pixel where
  r : Option Nat
  g : Option Nat
  b : Option Nat
deriving DecidableEq, Repr

/-- The record of the three assignments `image(x, y, c) = ...`, `c = 0, 1, 2`. -/
structure PixelWrite where
  x : Nat
  y : Nat
  value : Pixel
deriving DecidableEq, Repr

section Trace

variable {F : Type} [LinearOrderedField F] [FloorRing F]

/-- Conversion of a `float` to `unsigned char`: the value is truncated towards
zero; a truncated value outside `0 .. 255` has no defined result. -/
def float2uchar (v : F) : Option Nat :=
  let t : Int := if 0 ≤ v then Int.floor v else Int.ceil v
  if 0 ≤ t ∧ t ≤ 255 then some t.toNat else none

/-- The function `pixel2ray`. -/
def pixel2ray (cam : Camera F) (res x y : Nat) : Ray F :=
  let fx : F := (x : F) / (res : F) - 1 / 2
  let fy : F := -((y : F) / (res : F) - 1 / 2)
  { origin := cam.position, direction := cam.ray fx fy, bounce := 0 }

/-- The literal `1e9f`. -/
def sentinel : F := 1000000000

/-- A value-initialised `hit`. -/
def defaultHit : Hit F :=
  { object := none
    position := Vec3.splat 0
    ray := { origin := Vec3.splat 0, direction := Vec3.splat 0, bounce := 0 }
    distance := 0
    normal := Vec3.splat 0
    color := Vec3.splat 0 }

/-- The initial value `hit closest_hit{.t = 1e9f}`. -/
def sentinelHit : Hit F := { (defaultHit : Hit F) with distance := sentinel }

/-- One iteration of the loop over `Objects` in `TraceBlock`. -/
def closestStep (sqrt : F → F) (r : Ray F) (closest_hit : Hit F) (obj : Sphere F) : Hit F :=
  let res := obj.intersect sqrt r defaultHit
  if res.1 = true ∧ res.2.distance < closest_hit.distance then res.2 else closest_hit

/-- The loop over `Objects` in `TraceBlock`: the value of `closest_hit` after it. -/
def closestHit (sqrt : F → F) (objects : List (Sphere F)) (r : Ray F) : Hit F :=
  objects.foldl (closestStep sqrt r) sentinelHit

/-- One iteration of the loop over `Lights` in `TraceBlock`. -/
def shadeStep (sqrt : F → F) (closest_hit : Hit F) (finalColor : Vec3 F) (l : Light F) :
    Vec3 F :=
  let lightDir := Vec3.normalize sqrt (Vec3.sub l.position closest_hit.position)
  let dot := Vec3.dot lightDir closest_hit.normal
  if dot > 0 then Vec3.add finalColor (Vec3.mul (Vec3.smul dot l.intensity) closest_hit.color)
  else finalColor

/-- The value of `finalColor` after the loop over `Lights`, before the clamp. -/
def lightSum (sqrt : F → F) (lights : List (Light F)) (closest_hit : Hit F) : Vec3 F :=
  lights.foldl (shadeStep sqrt closest_hit) (Vec3.splat 0)

/-- The value of `finalColor` after the loop over `Lights` and the clamp. -/
def shade (sqrt : F → F) (lights : List (Light F)) (closest_hit : Hit F) : Vec3 F :=
  Vec3.clamp (lightSum sqrt lights closest_hit) 0 1

/-- The three channel assignments of a colour: each channel times 255, converted. -/
def writeColor (c : Vec3 F) : Pixel :=
  { r := float2uchar (c.x * 255), g := float2uchar (c.y * 255), b := float2uchar (c.z * 255) }

/-- The part of the body of `TraceBlock` after the ray has been made: closest hit,
then background or shading. -/
def traceRay (sqrt : F → F) (scene : Scene F) (r : Ray F) : Pixel :=
  let closest_hit := closestHit sqrt scene.objects r
  if closest_hit.distance = sentinel then writeColor scene.background
  else writeColor (shade sqrt scene.lights closest_hit)

/-- The body of the inner loop of `TraceBlock` for an in-bounds pixel. -/
def tracePixel (sqrt : F → F) (scene : Scene F) (res global_x global_y : Nat) : Pixel :=
  traceRay sqrt scene (pixel2ray scene.camera res global_x global_y)

/-- The function `TraceBlock`: the pixel writes it makes, in order. -/
def TraceBlock (sqrt : F → F) (scene : Scene F) (bx by_ block_size width height : Nat) :
    List PixelWrite :=
  let res := max width height
  (List.range block_size).flatMap fun y =>
    let global_y := uadd (umul by_ block_size) y
    (List.range block_size).flatMap fun x =>
      let global_x := uadd (umul bx block_size) x
      if global_x ≥ width ∨ global_y ≥ height then []
      else [{ x := global_x, y := global_y, value := tracePixel sqrt scene res global_x global_y }]

/-- The tiles `(bx, by)` in the order of the two nested loops of `render`. -/
def tiles (bx_dim by_dim : Nat) : List (Nat × Nat) :=
  (List.range bx_dim).flatMap fun bx => (List.range by_dim).map fun by_ => (bx, by_)

/-- The state of the branch `in_threads > 1` of `render`: the queue `threads` of
tiles in flight (front first) and the tiles joined so far. -/
structure Workers where
  threads : List (Nat × Nat)
  joined : List (Nat × Nat)
deriving DecidableEq, Repr

/-- The statement pair `threads.front().join(); threads.pop();`. -/
def joinFront (w : Workers) : Workers :=
  match w.threads with
  | [] => w
  | t :: rest => { threads := rest, joined := w.joined ++ [t] }

/-- The body of the inner loop of the branch `in_threads > 1`. -/
def dispatch (in_threads : Nat) (w : Workers) (tile : Nat × Nat) : Workers :=
  let w1 := if w.threads.length ≥ in_threads then joinFront w else w
  { w1 with threads := w1.threads ++ [tile] }

/-- The loop `while (!threads.empty())` of `render`. -/
def drain : List (Nat × Nat) → List (Nat × Nat) → Workers
  | [], joined => { threads := [], joined := joined }
  | t :: rest, joined => drain rest (joined ++ [t])

/-- The tiles that `render` runs `TraceBlock` on, in the order in which they are
completed: the order of the joins when `in_threads > 1`, the loop order
otherwise. -/
def renderTiles (in_threads bx_dim by_dim : Nat) : List (Nat × Nat) :=
  if in_threads > 1 then
    let w := (tiles bx_dim by_dim).foldl (dispatch in_threads) { threads := [], joined := [] }
    (drain w.threads w.joined).joined
  else tiles bx_dim by_dim

/-- The function `render`: the pixel writes made on an image of the given size.
There is no result when `in_blocksize` is zero (division by zero). -/
def render (sqrt : F → F) (scene : Scene F) (in_threads in_blocksize width height : Nat) :
    Option (List PixelWrite) :=
  match udiv (usub (uadd width in_blocksize) 1) in_blocksize,
        udiv (usub (uadd height in_blocksize) 1) in_blocksize with
  | some bx_dim, some by_dim =>
    some ((renderTiles in_threads bx_dim by_dim).flatMap fun t =>
      TraceBlock sqrt scene t.1 t.2 in_blocksize width height)
  | _, _ => none

end Trace

/-- The number of writes of a log that target the pixel `(x, y)`. -/
def writesAt (log : List PixelWrite) (x y : Nat) : Nat :=
  log.countP fun w => decide (w.x = x ∧ w.y = y)

/-- The image buffer `tira::image<unsigned char>`: the pixel stored at each
coordinate. -/
def Image : Type := Nat → Nat → Pixel

/-- The image after the three assignments `image(x, y, c) = ...` of one write. -/
def writePixel (img : Image) (w : PixelWrite) : Image :=
  fun x y => if x = w.x ∧ y = w.y then w.value else img x y

/-- The image after the writes of a log, made in order. -/
def applyWrites (img : Image) (log : List PixelWrite) : Image :=
  log.foldl writePixel img

/-- The image after `TraceBlock` has been executed on the tiles of `order`, one
after the other, starting from the image `img`. -/
def runTiles {F : Type} [LinearOrderedField F] [FloorRing F] (sqrt : F → F) (scene : Scene F)
    (block_size width height : Nat) (order : List (Nat × Nat)) (img : Image) : Image :=
  applyWrites img (order.flatMap fun t => TraceBlock sqrt scene t.1 t.2 block_size width height)

/-! ## Notions of the specification used to state the properties -/

section SpecNotions

variable {F : Type} [LinearOrderedField F]

/-- The square of the perpendicular distance from the point `c` to the line of the
ray: `|oc|^2 - (oc . d)^2 / |d|^2` with `oc = origin - c` and `d` the direction.
For the zero direction the quotient is `0` and the value is `|oc|^2`, the squared
distance from `c` to the origin of the ray. -/
def perpDistanceSq (ray : Ray F) (c : Vec3 F) : F :=
  Vec3.dot (Vec3.sub ray.origin c) (Vec3.sub ray.origin c) -
    (Vec3.dot (Vec3.sub ray.origin c) ray.direction) ^ 2 /
      Vec3.dot ray.direction ray.direction

/-- The perpendicular distance from the point `c` to the line of the ray. -/
def perpDistance (sqrt : F → F) (ray : Ray F) (c : Vec3 F) : F :=
  sqrt (perpDistanceSq ray c)

/-- The Lambert factor of the shading contract:
`max(0, dot(normalize(light.position - hit.position), hit.normal))`. -/
def lambert (sqrt : F → F) (hit : Hit F) (l : Light F) : F :=
  max 0 (Vec3.dot (Vec3.normalize sqrt (Vec3.sub l.position hit.position)) hit.normal)

/-- The shading contract in the words of the specification: per channel, the clamp
to `[0, 1]` of the sum over all lights of
`max(0, dot(normalize(light.position - hit.position), hit.normal)) * light.intensity * hit.color`. -/
def shadeSpec (sqrt : F → F) (lights : List (Light F)) (hit : Hit F) : Vec3 F :=
  { x := Vec3.clampScalar
      ((lights.map fun l => lambert sqrt hit l * l.intensity.x * hit.color.x).sum) 0 1
    y := Vec3.clampScalar
      ((lights.map fun l => lambert sqrt hit l * l.intensity.y * hit.color.y).sum) 0 1
    z := Vec3.clampScalar
      ((lights.map fun l => lambert sqrt hit l * l.intensity.z * hit.color.z).sum) 0 1 }

/-- The tile grid dimension in the words of the specification:
`ceil(width / blockSize)`, the quotient taken in the rationals. -/
def ceilDiv (width blockSize : Nat) : Nat :=
  Nat.ceil ((width : ℚ) / (blockSize : ℚ))

end SpecNotions

/-! ## Sample inputs -/

section Samples

variable (F : Type) [LinearOrderedField F]

/-- A ray from the origin along the positive `z` axis. -/
def zRay : Ray F := { origin := ⟨0, 0, 0⟩, direction := ⟨0, 0, 1⟩, bounce := 0 }

/-- A white sphere of the given radius with its center on the `z` axis. -/
def zSphere (radius dist : F) : Sphere F :=
  { radius := radius, center := ⟨0, 0, dist⟩, surfaceColor := ⟨1, 1, 1⟩ }

/-- A white sphere of the given radius with its center at `(x, 0, z)`. -/
def xzSphere (radius x z : F) : Sphere F :=
  { radius := radius, center := ⟨x, 0, z⟩, surfaceColor := ⟨1, 1, 1⟩ }

/-- Two unit spheres on the `z` axis, both beyond the distance `1e9`. -/
def farObjects : List (Sphere F) := [zSphere F 1 2000000000, zSphere F 1 3000000000]

/-- A camera at the origin that looks along the `z` axis for every pixel. -/
def zCamera : Camera F := { position := ⟨0, 0, 0⟩, ray := fun _ _ => ⟨0, 0, 1⟩ }

/-- A scene whose only sphere is off the `z` axis, with background `(0.2, 0.2, 0.8)`. -/
def missScene : Scene F :=
  { camera := zCamera F
    background := ⟨0.2, 0.2, 0.8⟩
    objects := [xzSphere F 1 3 5]
    lights := [] }

/-- A hit at the origin of a white surface that faces the positive `z` axis. -/
def originHit : Hit F :=
  { object := none
    position := ⟨0, 0, 0⟩
    ray := zRay F
    distance := 1
    normal := ⟨0, 0, 1⟩
    color := ⟨1, 1, 1⟩ }

/-- A light on the `z` axis at height `z` with the same intensity in all channels. -/
def zLight (z intensity : F) : Light F :=
  { position := ⟨0, 0, z⟩, intensity := ⟨intensity, intensity, intensity⟩ }

/-- A scene with the unit sphere at distance 5 on the `z` axis and one light at
`(6, 0, 6)`. -/
def litScene : Scene F :=
  { camera := zCamera F
    background := ⟨0.2, 0.2, 0.8⟩
    objects := [zSphere F 1 5]
    lights := [{ position := ⟨6, 0, 6⟩, intensity := ⟨1, 1, 1⟩ }] }

/-- A scene whose spheres are both beyond the distance `1e9`, without lights. -/
def farScene : Scene F :=
  { camera := zCamera F
    background := ⟨0.2, 0.2, 0.8⟩
    objects := farObjects F
    lights := [] }

end Samples

/-! ## The two intersection tests -/

section IntersectFacts

variable {F : Type} [LinearOrderedField F]

theorem intersect_eq_ite (sqrt : F → F) (s : Sphere F) (ray : Ray F) (hitData : Hit F) :
    s.intersect sqrt ray hitData =
      if 0 ≤ s.discriminant ray ∧ 0 ≤ s.t0 sqrt ray ∧ 0 ≤ s.t1 sqrt ray then
        (true,
          { hitData with
            position := Vec3.add ray.origin (Vec3.smul (s.t0 sqrt ray) ray.direction)
            color := s.surfaceColor
            object := some s
            normal := Vec3.normalize sqrt
              (Vec3.sub (Vec3.add ray.origin (Vec3.smul (s.t0 sqrt ray) ray.direction)) s.center)
            distance := s.t0 sqrt ray })
      else (false, hitData) := by
  unfold Sphere.intersect Sphere.t0 Sphere.t1 Sphere.discriminant
  by_cases hd : s.radius * s.radius -
      Vec3.dot (Vec3.sub (Vec3.sub ray.origin s.center)
        (Vec3.smul (Vec3.dot (Vec3.sub ray.origin s.center) ray.direction) ray.direction))
        (Vec3.sub (Vec3.sub ray.origin s.center)
        (Vec3.smul (Vec3.dot (Vec3.sub ray.origin s.center) ray.direction) ray.direction)) < 0
  · simp only [hd, if_true]
    rw [if_neg]
    intro h
    exact absurd hd (not_lt.mpr h.1)
  · simp only [hd, if_false]
    by_cases ht : -Vec3.dot (Vec3.sub ray.origin s.center) ray.direction -
        sqrt (s.radius * s.radius -
          Vec3.dot (Vec3.sub (Vec3.sub ray.origin s.center)
            (Vec3.smul (Vec3.dot (Vec3.sub ray.origin s.center) ray.direction) ray.direction))
            (Vec3.sub (Vec3.sub ray.origin s.center)
            (Vec3.smul (Vec3.dot (Vec3.sub ray.origin s.center) ray.direction) ray.direction))) < 0 ∨
        -Vec3.dot (Vec3.sub ray.origin s.center) ray.direction +
        sqrt (s.radius * s.radius -
          Vec3.dot (Vec3.sub (Vec3.sub ray.origin s.center)
            (Vec3.smul (Vec3.dot (Vec3.sub ray.origin s.center) ray.direction) ray.direction))
            (Vec3.sub (Vec3.sub ray.origin s.center)
            (Vec3.smul (Vec3.dot (Vec3.sub ray.origin s.center) ray.direction) ray.direction))) < 0
    · rw [if_pos ht, if_neg]
      intro h
      rcases ht with ht | ht
      · exact absurd ht (not_lt.mpr h.2.1)
      · exact absurd ht (not_lt.mpr h.2.2)
    · rw [if_neg ht, if_pos]
      push_neg at ht
      exact ⟨not_lt.mp hd, ht.1, ht.2⟩

theorem intersectMax_eq_decide (sqrt : F → F) (s : Sphere F) (ray : Ray F) (maxDistance : F) :
    s.intersectMax sqrt ray maxDistance =
      decide (0 ≤ s.discriminant ray ∧
        ((0 ≤ s.t0 sqrt ray ∧ s.t0 sqrt ray ≤ maxDistance) ∨
          (0 ≤ s.t1 sqrt ray ∧ s.t1 sqrt ray ≤ maxDistance))) := by
  unfold Sphere.intersectMax Sphere.t0 Sphere.t1 Sphere.discriminant
  by_cases hd : s.radius * s.radius -
      Vec3.dot (Vec3.sub (Vec3.sub ray.origin s.center)
        (Vec3.smul (Vec3.dot (Vec3.sub ray.origin s.center) ray.direction) ray.direction))
        (Vec3.sub (Vec3.sub ray.origin s.center)
        (Vec3.smul (Vec3.dot (Vec3.sub ray.origin s.center) ray.direction) ray.direction)) < 0
  · simp only [hd, if_true]
    symm
    rw [decide_eq_false_iff_not]
    intro h
    exact absurd hd (not_lt.mpr h.1)
  · simp only [hd, if_false, ge_iff_le]
    rw [decide_eq_decide]
    exact ⟨fun h => ⟨not_lt.mp hd, h⟩, fun h => h.2⟩

theorem intersect_true_iff (sqrt : F → F) (s : Sphere F) (ray : Ray F) (hitData : Hit F) :
    (s.intersect sqrt ray hitData).1 = true ↔
      0 ≤ s.discriminant ray ∧ 0 ≤ s.t0 sqrt ray ∧ 0 ≤ s.t1 sqrt ray := by
  rw [intersect_eq_ite]
  split_ifs with h
  · simp [h]
  · simp [h]

theorem intersect_distance (sqrt : F → F) (s : Sphere F) (ray : Ray F) (hitData : Hit F)
    (h : (s.intersect sqrt ray hitData).1 = true) :
    (s.intersect sqrt ray hitData).2.distance = s.t0 sqrt ray := by
  have hc := (intersect_true_iff sqrt s ray hitData).mp h
  rw [intersect_eq_ite, if_pos hc]

/-- For a ray aimed at the center of the sphere, `b` is minus the distance to the
center. -/
theorem b_aimed (o u : Vec3 F) (d : F) (hu : Vec3.dot u u = 1) :
    Vec3.dot (Vec3.sub o (Vec3.add o (Vec3.smul d u))) u = -d := by
  have h : Vec3.dot (Vec3.sub o (Vec3.add o (Vec3.smul d u))) u = -d * Vec3.dot u u := by
    simp only [Vec3.dot, Vec3.sub, Vec3.add, Vec3.smul]
    ring
  rw [h, hu, mul_one]

/-- For a ray aimed at the center of the sphere, the discriminant is `radius ^ 2`. -/
theorem discriminant_aimed (s : Sphere F) (ray : Ray F) (d : F)
    (hu : Vec3.dot ray.direction ray.direction = 1)
    (hc : s.center = Vec3.add ray.origin (Vec3.smul d ray.direction)) :
    s.discriminant ray = s.radius * s.radius := by
  unfold Sphere.discriminant
  simp only [hc, b_aimed ray.origin ray.direction d hu]
  simp only [Vec3.dot, Vec3.sub, Vec3.add, Vec3.smul]
  ring

/-- The scalar inequality behind `perpDistanceSq_le_closestPoint`. -/
theorem perp_alg (px py pz ux uy uz : F) :
    px * px + py * py + pz * pz - (px * ux + py * uy + pz * uz) ^ 2 / (ux * ux + uy * uy + uz * uz) ≤
      (px - (px * ux + py * uy + pz * uz) * ux) * (px - (px * ux + py * uy + pz * uz) * ux) +
      (py - (px * ux + py * uy + pz * uz) * uy) * (py - (px * ux + py * uy + pz * uz) * uy) +
      (pz - (px * ux + py * uy + pz * uz) * uz) * (pz - (px * ux + py * uy + pz * uz) * uz) := by
  have hL0 : 0 ≤ ux * ux + uy * uy + uz * uz := by
    nlinarith [mul_self_nonneg ux, mul_self_nonneg uy, mul_self_nonneg uz]
  obtain ⟨L, hL⟩ : ∃ L, L = ux * ux + uy * uy + uz * uz := ⟨_, rfl⟩
  obtain ⟨b, hb⟩ : ∃ b, b = px * ux + py * uy + pz * uz := ⟨_, rfl⟩
  have key : (px - b * ux) * (px - b * ux) + (py - b * uy) * (py - b * uy) +
      (pz - b * uz) * (pz - b * uz) = (px * px + py * py + pz * pz) - b ^ 2 * (2 - L) := by
    rw [hL, hb]; ring
  rw [← hb, key, ← hL]
  rw [← hL] at hL0
  rcases hL0.eq_or_lt with h0 | hpos
  · have hx : ux = 0 := mul_self_eq_zero.mp
      (le_antisymm (by linarith [mul_self_nonneg uy, mul_self_nonneg uz]) (mul_self_nonneg ux))
    have hy : uy = 0 := mul_self_eq_zero.mp
      (le_antisymm (by linarith [mul_self_nonneg ux, mul_self_nonneg uz]) (mul_self_nonneg uy))
    have hz : uz = 0 := mul_self_eq_zero.mp
      (le_antisymm (by linarith [mul_self_nonneg ux, mul_self_nonneg uy]) (mul_self_nonneg uz))
    have hb0 : b = 0 := by rw [hb, hx, hy, hz]; ring
    rw [← h0, hb0]
    simp
  · have hdiv : b ^ 2 / L = b ^ 2 * (2 - L) + b ^ 2 * (L - 1) ^ 2 / L := by
      field_simp
      ring
    have hnn : 0 ≤ b ^ 2 * (L - 1) ^ 2 / L := by positivity
    linarith

/-- The closest point computed by the code is a point of the ray's line, so it is
at least as far from the center as the perpendicular distance. -/
theorem perpDistanceSq_le_closestPoint (s : Sphere F) (ray : Ray F) :
    perpDistanceSq ray s.center ≤ s.radius * s.radius - s.discriminant ray := by
  unfold perpDistanceSq Sphere.discriminant
  simp only [Vec3.dot, Vec3.sub, Vec3.smul, sub_sub_cancel]
  exact perp_alg _ _ _ _ _ _

theorem intersect_false_of_discriminant_neg (sqrt : F → F) (s : Sphere F) (ray : Ray F)
    (hitData : Hit F) (h : s.discriminant ray < 0) :
    (s.intersect sqrt ray hitData).1 = false := by
  rw [intersect_eq_ite, if_neg]
  intro hc
  exact absurd h (not_lt.mpr hc.1)

end IntersectFacts

/-! ## The closest-hit loop -/

section ClosestFacts

variable {F : Type} [LinearOrderedField F]

theorem closestHit_concat (sqrt : F → F) (l : List (Sphere F)) (a : Sphere F) (r : Ray F) :
    closestHit sqrt (l ++ [a]) r = closestStep sqrt r (closestHit sqrt l r) a := by
  simp [closestHit, List.foldl_append]

/-- The invariant of the loop over `Objects`: either no sphere hit below the
sentinel and `closest_hit` is still the initial value, or `closest_hit` is the hit
of the first sphere that attains the smallest distance. -/
theorem closestHit_cases (sqrt : F → F) (r : Ray F) (objects : List (Sphere F)) :
    (closestHit sqrt objects r = sentinelHit ∧
      ∀ s ∈ objects, (s.intersect sqrt r defaultHit).1 = true →
        sentinel ≤ (s.intersect sqrt r defaultHit).2.distance) ∨
    (∃ pre s post, objects = pre ++ s :: post ∧
      (s.intersect sqrt r defaultHit).1 = true ∧
      closestHit sqrt objects r = (s.intersect sqrt r defaultHit).2 ∧
      (s.intersect sqrt r defaultHit).2.distance < sentinel ∧
      (∀ p ∈ pre, (p.intersect sqrt r defaultHit).1 = true →
        (s.intersect sqrt r defaultHit).2.distance < (p.intersect sqrt r defaultHit).2.distance) ∧
      (∀ q ∈ post, (q.intersect sqrt r defaultHit).1 = true →
        (s.intersect sqrt r defaultHit).2.distance ≤ (q.intersect sqrt r defaultHit).2.distance)) := by
  induction objects using List.reverseRecOn with
  | nil =>
    left
    exact ⟨rfl, fun s hs => absurd hs (List.not_mem_nil s)⟩
  | append_singleton l a ih =>
    rw [closestHit_concat]
    rcases ih with ⟨hc, hall⟩ | ⟨pre, s, post, hl, hs, hc, hlt, hpre, hpost⟩
    · rw [hc]
      by_cases hstep : (a.intersect sqrt r defaultHit).1 = true ∧
          (a.intersect sqrt r defaultHit).2.distance < (sentinelHit : Hit F).distance
      · right
        refine ⟨l, a, [], rfl, hstep.1, ?_, hstep.2, ?_, ?_⟩
        · simp only [closestStep, if_pos hstep]
        · intro p hp hpt
          exact lt_of_lt_of_le hstep.2 (hall p hp hpt)
        · intro q hq
          exact absurd hq (List.not_mem_nil q)
      · left
        refine ⟨?_, ?_⟩
        · simp only [closestStep, if_neg hstep]
        · intro s hs hst
          rcases List.mem_append.mp hs with h | h
          · exact hall s h hst
          · have hsa : s = a := List.mem_singleton.mp h
            subst hsa
            exact not_lt.mp (fun hlt => hstep ⟨hst, hlt⟩)
    · rw [hc]
      by_cases hstep : (a.intersect sqrt r defaultHit).1 = true ∧
          (a.intersect sqrt r defaultHit).2.distance < (s.intersect sqrt r defaultHit).2.distance
      · right
        refine ⟨l, a, [], rfl, hstep.1, ?_, lt_trans hstep.2 hlt, ?_, ?_⟩
        · simp only [closestStep, if_pos hstep]
        · intro p hp hpt
          rw [hl] at hp
          rcases List.mem_append.mp hp with h | h
          · exact lt_trans hstep.2 (hpre p h hpt)
          · rcases List.mem_cons.mp h with h | h
            · subst h
              exact hstep.2
            · exact lt_of_lt_of_le hstep.2 (hpost p h hpt)
        · intro q hq
          exact absurd hq (List.not_mem_nil q)
      · right
        refine ⟨pre, s, post ++ [a], ?_, hs, ?_, hlt, hpre, ?_⟩
        · rw [hl]; simp
        · simp only [closestStep, if_neg hstep]
        · intro q hq hqt
          rcases List.mem_append.mp hq with h | h
          · exact hpost q h hqt
          · have hqa : q = a := List.mem_singleton.mp h
            subst hqa
            exact not_lt.mp (fun hlt2 => hstep ⟨hqt, hlt2⟩)

/-- The loop over a list of two spheres that are both hit keeps the first one when
its distance is below the sentinel and not larger than the second one's, and the
second one when its distance is strictly smaller. -/
theorem closestHit_pair (sqrt : F → F) (r : Ray F) (a b : Sphere F)
    (ha : (a.intersect sqrt r defaultHit).1 = true)
    (hb : (b.intersect sqrt r defaultHit).1 = true) :
    ((a.intersect sqrt r defaultHit).2.distance < sentinel →
      (a.intersect sqrt r defaultHit).2.distance ≤ (b.intersect sqrt r defaultHit).2.distance →
      closestHit sqrt [a, b] r = (a.intersect sqrt r defaultHit).2) ∧
    ((b.intersect sqrt r defaultHit).2.distance < sentinel →
      (b.intersect sqrt r defaultHit).2.distance < (a.intersect sqrt r defaultHit).2.distance →
      closestHit sqrt [a, b] r = (b.intersect sqrt r defaultHit).2) := by
  have hsent : (sentinelHit : Hit F).distance = sentinel := rfl
  constructor
  · intro h1 h2
    simp only [closestHit, List.foldl_cons, List.foldl_nil]
    have step1 : closestStep sqrt r sentinelHit a = (a.intersect sqrt r defaultHit).2 := by
      simp only [closestStep, hsent, if_pos (And.intro ha h1)]
    rw [step1]
    simp only [closestStep]
    rw [if_neg]
    intro hc
    exact absurd hc.2 (not_lt.mpr h2)
  · intro h1 h2
    simp only [closestHit, List.foldl_cons, List.foldl_nil]
    by_cases hlt : (a.intersect sqrt r defaultHit).2.distance < sentinel
    · have step1 : closestStep sqrt r sentinelHit a = (a.intersect sqrt r defaultHit).2 := by
        simp only [closestStep, hsent, if_pos (And.intro ha hlt)]
      rw [step1]
      simp only [closestStep, if_pos (And.intro hb h2)]
    · have step1 : closestStep sqrt r sentinelHit a = sentinelHit := by
        simp only [closestStep, hsent]
        rw [if_neg]
        intro hc
        exact hlt hc.2
      rw [step1]
      simp only [closestStep, hsent, if_pos (And.intro hb h1)]

/-- When no sphere reports a detailed hit the loop leaves the initial value. -/
theorem closestHit_of_all_miss (sqrt : F → F) (r : Ray F) (objects : List (Sphere F))
    (hmiss : ∀ s ∈ objects, (s.intersect sqrt r defaultHit).1 = false) :
    closestHit sqrt objects r = sentinelHit := by
  rcases closestHit_cases sqrt r objects with ⟨hc, -⟩ | ⟨pre, s, post, hl, hs, -⟩
  · exact hc
  · have hmem : s ∈ objects := by rw [hl]; simp
    rw [hmiss s hmem] at hs
    exact absurd hs (by decide)

end ClosestFacts

/-! ## Shading and pixel conversion -/

section ShadeFacts

variable {F : Type} [LinearOrderedField F]

/-- One iteration of the loop over `Lights` adds the Lambert term of the light. -/
theorem shadeStep_eq (sqrt : F → F) (hit : Hit F) (fc : Vec3 F) (l : Light F) :
    shadeStep sqrt hit fc l =
      ⟨fc.x + lambert sqrt hit l * l.intensity.x * hit.color.x,
       fc.y + lambert sqrt hit l * l.intensity.y * hit.color.y,
       fc.z + lambert sqrt hit l * l.intensity.z * hit.color.z⟩ := by
  unfold shadeStep lambert
  by_cases hd : Vec3.dot (Vec3.normalize sqrt (Vec3.sub l.position hit.position)) hit.normal > 0
  · simp only [hd, if_true, max_eq_right hd.le, Vec3.add, Vec3.mul, Vec3.smul]
  · simp only [hd, if_false, max_eq_left (not_lt.mp hd), zero_mul, add_zero]

/-- The loop over `Lights` started from `acc` adds the sum of the Lambert terms. -/
theorem foldl_shadeStep (sqrt : F → F) (hit : Hit F) (lights : List (Light F)) (acc : Vec3 F) :
    lights.foldl (shadeStep sqrt hit) acc =
      ⟨acc.x + (lights.map fun l => lambert sqrt hit l * l.intensity.x * hit.color.x).sum,
       acc.y + (lights.map fun l => lambert sqrt hit l * l.intensity.y * hit.color.y).sum,
       acc.z + (lights.map fun l => lambert sqrt hit l * l.intensity.z * hit.color.z).sum⟩ := by
  induction lights generalizing acc with
  | nil => simp
  | cons l rest ih =>
    rw [List.foldl_cons, ih, shadeStep_eq]
    simp only [List.map_cons, List.sum_cons, add_assoc]

theorem clampScalar_mem (v : F) : 0 ≤ Vec3.clampScalar v 0 1 ∧ Vec3.clampScalar v 0 1 ≤ 1 := by
  unfold Vec3.clampScalar
  exact ⟨le_min (le_max_right v 0) zero_le_one, min_le_right _ _⟩

theorem clampScalar_of_one_le (v : F) (h : 1 ≤ v) : Vec3.clampScalar v 0 1 = 1 := by
  unfold Vec3.clampScalar
  exact min_eq_right (le_trans h (le_max_left v 0))

variable [FloorRing F]

/-- A natural number up to 255 converts to itself. -/
theorem float2uchar_natCast (n : Nat) (h : n ≤ 255) : float2uchar (n : F) = some n := by
  unfold float2uchar
  have h0 : (0 : F) ≤ (n : F) := Nat.cast_nonneg n
  simp only [h0, if_true, Int.floor_natCast]
  rw [if_pos ⟨Int.natCast_nonneg n, by exact_mod_cast h⟩]
  simp

/-- A channel in `[0, 1]` times 255 converts to a value in `0 .. 255`. -/
theorem float2uchar_unit (c : F) (h0 : 0 ≤ c) (h1 : c ≤ 1) :
    ∃ n : Nat, float2uchar (c * 255) = some n ∧ n ≤ 255 := by
  unfold float2uchar
  have hc : (0 : F) ≤ c * 255 := mul_nonneg h0 (by norm_num)
  have hf0 : (0 : Int) ≤ Int.floor (c * 255) := Int.floor_nonneg.mpr hc
  have hf1 : Int.floor (c * 255) ≤ 255 := by
    have hle : c * 255 ≤ ((255 : Int) : F) := by
      push_cast
      nlinarith
    exact Int.cast_le.mp (le_trans (Int.floor_le _) hle)
  simp only [hc, if_true]
  rw [if_pos ⟨hf0, hf1⟩]
  exact ⟨(Int.floor (c * 255)).toNat, rfl, by omega⟩

end ShadeFacts

/-! ## Evaluation over the real numbers -/

section RealFacts

theorem discriminant_zSphere (radius dist : ℝ) :
    (zSphere ℝ radius dist).discriminant (zRay ℝ) = radius * radius := by
  simp [Sphere.discriminant, zSphere, zRay, Vec3.sub, Vec3.dot, Vec3.smul]

theorem t0_zSphere (radius dist : ℝ) (hr : 0 ≤ radius) :
    (zSphere ℝ radius dist).t0 Real.sqrt (zRay ℝ) = dist - radius := by
  unfold Sphere.t0
  rw [discriminant_zSphere, Real.sqrt_mul_self hr]
  simp [zSphere, zRay, Vec3.sub, Vec3.dot]

theorem t1_zSphere (radius dist : ℝ) (hr : 0 ≤ radius) :
    (zSphere ℝ radius dist).t1 Real.sqrt (zRay ℝ) = dist + radius := by
  unfold Sphere.t1
  rw [discriminant_zSphere, Real.sqrt_mul_self hr]
  simp [zSphere, zRay, Vec3.sub, Vec3.dot]

theorem intersect_zSphere_true (radius dist : ℝ) (hr : 0 ≤ radius) (hd : radius ≤ dist)
    (hitData : Hit ℝ) :
    ((zSphere ℝ radius dist).intersect Real.sqrt (zRay ℝ) hitData).1 = true := by
  rw [intersect_true_iff, discriminant_zSphere, t0_zSphere radius dist hr,
    t1_zSphere radius dist hr]
  exact ⟨mul_nonneg hr hr, by linarith, by linarith⟩

/-- A perpendicular distance above a non-negative radius makes the discriminant
negative. -/
theorem discriminant_neg_of_perpDistance (s : Sphere ℝ) (ray : Ray ℝ) (hr : 0 ≤ s.radius)
    (hp : s.radius < perpDistance Real.sqrt ray s.center) : s.discriminant ray < 0 := by
  have h1 : s.radius ^ 2 < perpDistanceSq ray s.center := (Real.lt_sqrt hr).mp hp
  have h2 := perpDistanceSq_le_closestPoint s ray
  nlinarith

theorem perpDistance_xzSphere :
    (xzSphere ℝ 1 3 5).radius < perpDistance Real.sqrt (zRay ℝ) (xzSphere ℝ 1 3 5).center := by
  have hp : perpDistanceSq (zRay ℝ) (xzSphere ℝ 1 3 5).center = 9 := by
    norm_num [perpDistanceSq, xzSphere, zRay, Vec3.sub, Vec3.dot]
  rw [perpDistance, hp]
  exact (Real.lt_sqrt (by norm_num [xzSphere])).mpr (by norm_num [xzSphere])

theorem intersect_xzSphere_false (hitData : Hit ℝ) :
    ((xzSphere ℝ 1 3 5).intersect Real.sqrt (zRay ℝ) hitData).1 = false :=
  intersect_false_of_discriminant_neg Real.sqrt _ _ hitData
    (discriminant_neg_of_perpDistance _ _ (by norm_num [xzSphere]) perpDistance_xzSphere)

theorem lambert_zLight_above (intensity : ℝ) :
    lambert Real.sqrt (originHit ℝ) (zLight ℝ 1 intensity) = 1 := by
  simp [lambert, originHit, zLight, Vec3.normalize, Vec3.sub, Vec3.dot, Vec3.smul]

theorem dot_zLight_below (intensity : ℝ) :
    Vec3.dot (Vec3.normalize Real.sqrt
      (Vec3.sub (zLight ℝ (-1) intensity).position (originHit ℝ).position))
      (originHit ℝ).normal = -1 := by
  simp [originHit, zLight, Vec3.normalize, Vec3.sub, Vec3.dot, Vec3.smul]

end RealFacts

/-! ## The tile scheduler -/

section TileFacts

theorem usub_uadd_one (w bs : Nat) (hbs : 0 < bs) (h : w + bs - 1 < UINT_MOD) :
    usub (uadd w bs) 1 = w + bs - 1 := by
  unfold usub uadd UINT_MOD at *
  omega

theorem uadd_umul (b bs x : Nat) (h : b * bs + x < UINT_MOD) :
    uadd (umul b bs) x = b * bs + x := by
  unfold uadd umul
  have h1 : b * bs < UINT_MOD := lt_of_le_of_lt (Nat.le_add_right _ _) h
  rw [Nat.mod_eq_of_lt h1, Nat.mod_eq_of_lt h]

/-- A tile index below the grid dimension keeps the whole tile below `w + bs - 1`. -/
theorem tile_bound (w bs b : Nat) (hb : b < (w + bs - 1) / bs) :
    b * bs + bs ≤ w + bs - 1 := by
  have h1 : (b + 1) * bs ≤ (w + bs - 1) / bs * bs := Nat.mul_le_mul_right bs hb
  have h2 : (w + bs - 1) / bs * bs ≤ w + bs - 1 := Nat.div_mul_le_self _ _
  have h3 : (b + 1) * bs = b * bs + bs := by ring
  omega

/-- Every coordinate below `w` lies in a tile of the grid. -/
theorem tile_index_lt (w bs x : Nat) (hbs : 0 < bs) (hx : x < w) :
    x / bs < (w + bs - 1) / bs := by
  rw [Nat.div_lt_iff_lt_mul hbs]
  have h2 := Nat.div_add_mod (w + bs - 1) bs
  have h3 := Nat.mod_lt (w + bs - 1) hbs
  rw [Nat.mul_comm] at h2
  omega

theorem joinFront_all (w : Workers) :
    (joinFront w).joined ++ (joinFront w).threads = w.joined ++ w.threads := by
  unfold joinFront
  cases h : w.threads with
  | nil => simp [h]
  | cons t rest => simp

theorem dispatch_all (in_threads : Nat) (w : Workers) (tile : Nat × Nat) :
    (dispatch in_threads w tile).joined ++ (dispatch in_threads w tile).threads =
      w.joined ++ w.threads ++ [tile] := by
  unfold dispatch
  by_cases h : w.threads.length ≥ in_threads
  · simp only [h, if_true, ← List.append_assoc, joinFront_all]
  · simp only [h, if_false, ← List.append_assoc]

theorem foldl_dispatch_all (in_threads : Nat) (ts : List (Nat × Nat)) (w : Workers) :
    (ts.foldl (dispatch in_threads) w).joined ++ (ts.foldl (dispatch in_threads) w).threads =
      w.joined ++ w.threads ++ ts := by
  induction ts generalizing w with
  | nil => simp
  | cons t rest ih =>
    rw [List.foldl_cons, ih, dispatch_all]
    simp

theorem drain_joined (threads joined : List (Nat × Nat)) :
    (drain threads joined).joined = joined ++ threads ∧ (drain threads joined).threads = [] := by
  induction threads generalizing joined with
  | nil => simp [drain]
  | cons t rest ih =>
    rw [drain]
    refine ⟨by rw [(ih _).1]; simp, (ih _).2⟩

/-- Both branches of `render` complete the tiles in the order of the nested loops. -/
theorem renderTiles_eq (in_threads bx_dim by_dim : Nat) :
    renderTiles in_threads bx_dim by_dim = tiles bx_dim by_dim := by
  unfold renderTiles
  split_ifs with h
  · simp only [(drain_joined _ _).1]
    have := foldl_dispatch_all in_threads (tiles bx_dim by_dim) { threads := [], joined := [] }
    simpa using this
  · rfl

theorem mem_tiles (bx_dim by_dim : Nat) (t : Nat × Nat) :
    t ∈ tiles bx_dim by_dim ↔ t.1 < bx_dim ∧ t.2 < by_dim := by
  unfold tiles
  simp only [List.mem_flatMap, List.mem_map, List.mem_range]
  constructor
  · rintro ⟨bx, hbx, b, hb, rfl⟩
    exact ⟨hbx, hb⟩
  · rintro ⟨h1, h2⟩
    exact ⟨t.1, h1, t.2, h2, rfl⟩

/-- A list built by `flatMap` from a duplicate-free list has no duplicates when
every element determines the index it was made from. -/
theorem nodup_flatMap_of_tag {ι β : Type} (tag : β → ι) (l : List ι) (f : ι → List β)
    (hl : l.Nodup) (hf : ∀ a ∈ l, (f a).Nodup) (ht : ∀ a ∈ l, ∀ b ∈ f a, tag b = a) :
    (l.flatMap f).Nodup := by
  rw [List.nodup_flatMap]
  refine ⟨hf, ?_⟩
  refine List.Pairwise.imp_of_mem ?_ hl
  intro a b ha hb hne
  show List.Disjoint (f a) (f b)
  intro e hea heb
  exact hne ((ht a ha e hea).symm.trans (ht b hb e heb))

/-- A duplicate-free list all of whose members equal `e`, and that contains `e`, has
length one. -/
theorem length_eq_one_of_nodup {β : Type} (l : List β) (e : β) (hl : l.Nodup) (he : e ∈ l)
    (hall : ∀ a ∈ l, a = e) : l.length = 1 := by
  cases l with
  | nil => exact absurd he (List.not_mem_nil e)
  | cons a t =>
    cases t with
    | nil => rfl
    | cons b u =>
      exfalso
      have ha : a = e := hall a (List.mem_cons_self a _)
      have hb : b = e := hall b (List.mem_cons_of_mem a (List.mem_cons_self b u))
      have hnot : a ∉ b :: u := (List.nodup_cons.mp hl).1
      exact hnot (by rw [ha, ← hb]; exact List.mem_cons_self b u)

theorem nodup_tiles (bx_dim by_dim : Nat) : (tiles bx_dim by_dim).Nodup := by
  unfold tiles
  refine nodup_flatMap_of_tag Prod.fst _ _ (List.nodup_range bx_dim) ?_ ?_
  · intro bx _
    refine List.Nodup.map ?_ (List.nodup_range by_dim)
    intro a b hab
    exact congrArg Prod.snd hab
  · intro bx _ t ht
    obtain ⟨b, _, rfl⟩ := List.mem_map.mp ht
    rfl

variable {F : Type} [LinearOrderedField F] [FloorRing F]

/-- The writes of the inner loop of `TraceBlock` for the row `y` of tile `(bx, by)`. -/
theorem mem_TraceBlock_iff (sqrt : F → F) (scene : Scene F) (bx by_ bs width height : Nat)
    (hx : bx * bs + bs ≤ UINT_MOD) (hy : by_ * bs + bs ≤ UINT_MOD) (w : PixelWrite) :
    w ∈ TraceBlock sqrt scene bx by_ bs width height ↔
      ∃ y, y < bs ∧ ∃ x, x < bs ∧ bx * bs + x < width ∧ by_ * bs + y < height ∧
        w = { x := bx * bs + x, y := by_ * bs + y,
              value := tracePixel sqrt scene (max width height) (bx * bs + x) (by_ * bs + y) } := by
  unfold TraceBlock
  simp only [List.mem_flatMap, List.mem_range]
  constructor
  · rintro ⟨y, hyb, x, hxb, hw⟩
    rw [uadd_umul bx bs x (by omega), uadd_umul by_ bs y (by omega)] at hw
    split_ifs at hw with hc
    · exact absurd hw (List.not_mem_nil w)
    · push_neg at hc
      exact ⟨y, hyb, x, hxb, hc.1, hc.2, List.mem_singleton.mp hw⟩
  · rintro ⟨y, hyb, x, hxb, h1, h2, hw⟩
    refine ⟨y, hyb, x, hxb, ?_⟩
    rw [uadd_umul bx bs x (by omega), uadd_umul by_ bs y (by omega)]
    rw [if_neg (by push_neg; exact ⟨h1, h2⟩)]
    exact List.mem_singleton.mpr hw

/-- The guard of `TraceBlock` keeps every write inside the image, whatever the
tile and the tile size. -/
theorem TraceBlock_in_bounds (sqrt : F → F) (scene : Scene F) (bx by_ bs width height : Nat)
    (w : PixelWrite) (hw : w ∈ TraceBlock sqrt scene bx by_ bs width height) :
    w.x < width ∧ w.y < height := by
  unfold TraceBlock at hw
  simp only [List.mem_flatMap, List.mem_range] at hw
  obtain ⟨y, -, x, -, hw⟩ := hw
  split_ifs at hw with hc
  · exact absurd hw (List.not_mem_nil w)
  · push_neg at hc
    rw [List.mem_singleton.mp hw]
    exact hc

theorem nodup_TraceBlock (sqrt : F → F) (scene : Scene F) (bx by_ bs width height : Nat)
    (hx : bx * bs + bs ≤ UINT_MOD) (hy : by_ * bs + bs ≤ UINT_MOD) :
    (TraceBlock sqrt scene bx by_ bs width height).Nodup := by
  unfold TraceBlock
  refine nodup_flatMap_of_tag (fun w => w.y - by_ * bs) _ _ (List.nodup_range bs) ?_ ?_
  · intro y hyb
    have hyb := List.mem_range.mp hyb
    refine nodup_flatMap_of_tag (fun w => w.x - bx * bs) _ _ (List.nodup_range bs) ?_ ?_
    · intro x _
      dsimp only
      split_ifs
      · exact List.nodup_nil
      · exact List.nodup_singleton _
    · intro x hxb w hw
      have hxb := List.mem_range.mp hxb
      rw [uadd_umul bx bs x (by omega)] at hw
      dsimp only at hw ⊢
      split_ifs at hw with hc
      · exact absurd hw (List.not_mem_nil w)
      · rw [List.mem_singleton.mp hw]
        simp
  · intro y hyb w hw
    have hyb := List.mem_range.mp hyb
    simp only [List.mem_flatMap, List.mem_range] at hw
    obtain ⟨x, -, hw⟩ := hw
    rw [uadd_umul by_ bs y (by omega)] at hw
    dsimp only at hw ⊢
    split_ifs at hw with hc
    · exact absurd hw (List.not_mem_nil w)
    · rw [List.mem_singleton.mp hw]
      simp

/-- The writes of all tiles of the grid when no tile wraps: no duplicates, and a
write is in the log exactly when it is the write of an in-bounds pixel. -/
theorem tiles_writes (sqrt : F → F) (scene : Scene F) (bs width height : Nat) (hbs : 0 < bs)
    (hw : width + bs - 1 < UINT_MOD) (hh : height + bs - 1 < UINT_MOD) :
    let log := (tiles ((width + bs - 1) / bs) ((height + bs - 1) / bs)).flatMap fun t =>
      TraceBlock sqrt scene t.1 t.2 bs width height
    log.Nodup ∧
      ∀ w, w ∈ log ↔ w.x < width ∧ w.y < height ∧
        w.value = tracePixel sqrt scene (max width height) w.x w.y := by
  intro log
  have hbound : ∀ t ∈ tiles ((width + bs - 1) / bs) ((height + bs - 1) / bs),
      t.1 * bs + bs ≤ UINT_MOD ∧ t.2 * bs + bs ≤ UINT_MOD := by
    intro t ht
    have h := (mem_tiles _ _ t).mp ht
    have h1 := tile_bound width bs t.1 h.1
    have h2 := tile_bound height bs t.2 h.2
    exact ⟨by omega, by omega⟩
  refine ⟨?_, ?_⟩
  · refine nodup_flatMap_of_tag (fun w => (w.x / bs, w.y / bs)) _ _ (nodup_tiles _ _) ?_ ?_
    · intro t ht
      exact nodup_TraceBlock sqrt scene t.1 t.2 bs width height (hbound t ht).1 (hbound t ht).2
    · intro t ht w hwt
      obtain ⟨y, hyb, x, hxb, -, -, rfl⟩ :=
        (mem_TraceBlock_iff sqrt scene t.1 t.2 bs width height (hbound t ht).1 (hbound t ht).2 w).mp hwt
      have e1 : (t.1 * bs + x) / bs = t.1 := by
        rw [Nat.mul_comm, Nat.mul_add_div hbs, Nat.div_eq_of_lt hxb, Nat.add_zero]
      have e2 : (t.2 * bs + y) / bs = t.2 := by
        rw [Nat.mul_comm, Nat.mul_add_div hbs, Nat.div_eq_of_lt hyb, Nat.add_zero]
      simp only [e1, e2]
  · intro w
    simp only [log, List.mem_flatMap]
    constructor
    · rintro ⟨t, ht, hwt⟩
      obtain ⟨y, hyb, x, hxb, h1, h2, rfl⟩ :=
        (mem_TraceBlock_iff sqrt scene t.1 t.2 bs width height (hbound t ht).1 (hbound t ht).2 w).mp hwt
      exact ⟨h1, h2, rfl⟩
    · rintro ⟨h1, h2, h3⟩
      have ht : (w.x / bs, w.y / bs) ∈ tiles ((width + bs - 1) / bs) ((height + bs - 1) / bs) :=
        (mem_tiles _ _ _).mpr ⟨tile_index_lt width bs w.x hbs h1, tile_index_lt height bs w.y hbs h2⟩
      refine ⟨(w.x / bs, w.y / bs), ht, ?_⟩
      rw [mem_TraceBlock_iff sqrt scene _ _ bs width height (hbound _ ht).1 (hbound _ ht).2 w]
      have ex : w.x / bs * bs + w.x % bs = w.x := by
        rw [Nat.mul_comm]; exact Nat.div_add_mod w.x bs
      have ey : w.y / bs * bs + w.y % bs = w.y := by
        rw [Nat.mul_comm]; exact Nat.div_add_mod w.y bs
      refine ⟨w.y % bs, Nat.mod_lt _ hbs, w.x % bs, Nat.mod_lt _ hbs, ?_, ?_, ?_⟩
      · simp only [ex]; exact h1
      · simp only [ey]; exact h2
      · simp only [ex, ey, ← h3]

/-- The grid dimension computed by `render` when the sum does not wrap. -/
theorem udiv_dim (w bs : Nat) (hbs : 0 < bs) (h : w + bs - 1 < UINT_MOD) :
    udiv (usub (uadd w bs) 1) bs = some ((w + bs - 1) / bs) := by
  rw [usub_uadd_one w bs hbs h]
  unfold udiv
  rw [if_neg (Nat.pos_iff_ne_zero.mp hbs)]

/-- Whenever `render` has a result, no write of it targets a coordinate outside the
image. -/
theorem render_in_bounds (sqrt : F → F) (scene : Scene F)
    (in_threads in_blocksize width height : Nat) (log : List PixelWrite)
    (hlog : render sqrt scene in_threads in_blocksize width height = some log) :
    ∀ w ∈ log, w.x < width ∧ w.y < height := by
  unfold render at hlog
  split at hlog
  · rw [← Option.some.inj hlog]
    intro w hw
    obtain ⟨t, -, hwt⟩ := List.mem_flatMap.mp hw
    exact TraceBlock_in_bounds sqrt scene _ _ _ _ _ w hwt
  · exact absurd hlog (by simp)

/-- Tile coverage when the tile size is positive and neither `width + blockSize - 1`
nor `height + blockSize - 1` wraps: `render` has a result, every in-bounds pixel is
written exactly once (with the colour traced for it), and nothing is written out
of bounds. -/
theorem render_tile_coverage (sqrt : F → F) (scene : Scene F)
    (in_threads in_blocksize width height : Nat) (hbs : 0 < in_blocksize)
    (hw : width + in_blocksize - 1 < UINT_MOD) (hh : height + in_blocksize - 1 < UINT_MOD) :
    ∃ log, render sqrt scene in_threads in_blocksize width height = some log ∧
      (∀ x y, x < width → y < height → writesAt log x y = 1) ∧
      (∀ w ∈ log, w.x < width ∧ w.y < height ∧
        w.value = tracePixel sqrt scene (max width height) w.x w.y) := by
  obtain ⟨hnd, hmem⟩ := tiles_writes sqrt scene in_blocksize width height hbs hw hh
  refine ⟨(tiles ((width + in_blocksize - 1) / in_blocksize)
      ((height + in_blocksize - 1) / in_blocksize)).flatMap fun t =>
      TraceBlock sqrt scene t.1 t.2 in_blocksize width height, ?_, ?_, ?_⟩
  · unfold render
    simp only [udiv_dim width in_blocksize hbs hw, udiv_dim height in_blocksize hbs hh,
      renderTiles_eq]
  · intro x y hx hy
    unfold writesAt
    rw [List.countP_eq_length_filter]
    refine length_eq_one_of_nodup _
      { x := x, y := y, value := tracePixel sqrt scene (max width height) x y }
      (hnd.filter _) ?_ ?_
    · rw [List.mem_filter]
      exact ⟨(hmem _).mpr ⟨hx, hy, rfl⟩, by simp⟩
    · intro a ha
      rw [List.mem_filter] at ha
      have ha2 := ((hmem a).mp ha.1).2.2
      have hxy : a.x = x ∧ a.y = y := of_decide_eq_true ha.2
      cases a
      simp only at hxy ha2
      rw [ha2, hxy.1, hxy.2]
  · intro w hwl
    exact (hmem w).mp hwl

theorem render_tile_coverage_example :
    ∃ log, render Real.sqrt (missScene ℝ) 2 2 3 3 = some log ∧
      (∀ x y, x < 3 → y < 3 → writesAt log x y = 1) ∧
      (∀ w ∈ log, w.x < 3 ∧ w.y < 3 ∧
        w.value = tracePixel Real.sqrt (missScene ℝ) (max 3 3) w.x w.y) :=
  render_tile_coverage Real.sqrt (missScene ℝ) 2 2 3 3 (by decide) (by decide) (by decide)

end TileFacts

/-! ## Claims -/

/-- C1: tile coverage fails when `width + blockSize - 1` wraps in 32-bit arithmetic:
for an image of width 2 and height 1 and the tile size `4294967295`, `bx_dim` is
computed as `0`, so `render` dispatches no tile: its write log is empty, and the
number of writes to the in-bounds pixels `(0, 0)` and `(1, 0)` is `0`, not `1`. -/
theorem render_blocksize_overflow {F : Type} [LinearOrderedField F] [FloorRing F]
    (sqrt : F → F) (scene : Scene F) (in_threads : Nat) :
    udiv (usub (uadd 2 4294967295) 1) 4294967295 = some 0 ∧
      render sqrt scene in_threads 4294967295 2 1 = some [] ∧
      (render sqrt scene in_threads 4294967295 2 1).map (fun log => writesAt log 0 0) = some 0 ∧
      (render sqrt scene in_threads 4294967295 2 1).map (fun log => writesAt log 1 0) = some 0 := by
  have h1 : udiv (usub (uadd 2 4294967295) 1) 4294967295 = some 0 := by decide
  have h2 : udiv (usub (uadd 1 4294967295) 1) 4294967295 = some 1 := by decide
  have h3 : render sqrt scene in_threads 4294967295 2 1 = some [] := by
    unfold render
    simp only [h1, h2, renderTiles_eq]
    rfl
  refine ⟨h1, h3, ?_, ?_⟩
  · rw [h3]; rfl
  · rw [h3]; rfl

/-- C2: the detailed test `Sphere::intersect(ray, hit)` returns true exactly when
the discriminant, `t0` and `t1` are all non-negative; and when it returns true the
hit holds position `origin + t0 * direction`, the sphere's surface colour, normal
`normalize(position - center)` and distance `t0`. -/
theorem detailed_hit_contract {F : Type} [LinearOrderedField F] (sqrt : F → F)
    (s : Sphere F) (ray : Ray F) (hitData : Hit F) :
    ((s.intersect sqrt ray hitData).1 = true ↔
      (s.discriminant ray ≥ 0 ∧ s.t0 sqrt ray ≥ 0 ∧ s.t1 sqrt ray ≥ 0)) ∧
    ((s.intersect sqrt ray hitData).1 = true →
      (s.intersect sqrt ray hitData).2.position =
          Vec3.add ray.origin (Vec3.smul (s.t0 sqrt ray) ray.direction) ∧
        (s.intersect sqrt ray hitData).2.color = s.surfaceColor ∧
        (s.intersect sqrt ray hitData).2.normal =
          Vec3.normalize sqrt
            (Vec3.sub (s.intersect sqrt ray hitData).2.position s.center) ∧
        (s.intersect sqrt ray hitData).2.distance = s.t0 sqrt ray) := by
  refine ⟨intersect_true_iff sqrt s ray hitData, fun h => ?_⟩
  have hc := (intersect_true_iff sqrt s ray hitData).mp h
  rw [intersect_eq_ite, if_pos hc]
  exact ⟨rfl, rfl, rfl, rfl⟩

/-- Witness for C2: the unit sphere centred at `(0, 0, 5)` and the ray from the
origin along `z` over the reals: the test returns true and the hit is at
distance `t0`. -/
theorem detailed_hit_contract_witness :
    ((zSphere ℝ 1 5).intersect Real.sqrt (zRay ℝ) defaultHit).1 = true ∧
      ((zSphere ℝ 1 5).intersect Real.sqrt (zRay ℝ) defaultHit).2.distance =
        (zSphere ℝ 1 5).t0 Real.sqrt (zRay ℝ) :=
  ⟨intersect_zSphere_true 1 5 (by norm_num) (by norm_num) defaultHit,
    ((detailed_hit_contract Real.sqrt (zSphere ℝ 1 5) (zRay ℝ) defaultHit).2
      (intersect_zSphere_true 1 5 (by norm_num) (by norm_num) defaultHit)).2.2.2⟩

/-- C9: the boolean test `Sphere::intersect(ray, maxDistance)` returns true exactly
when the discriminant is non-negative and at least one of `t0`, `t1` lies in the
closed interval from `0` to `maxDistance`. -/
theorem boolean_visibility_contract {F : Type} [LinearOrderedField F] (sqrt : F → F)
    (s : Sphere F) (ray : Ray F) (maxDistance : F) :
    s.intersectMax sqrt ray maxDistance = true ↔
      (s.discriminant ray ≥ 0 ∧
        ((0 ≤ s.t0 sqrt ray ∧ s.t0 sqrt ray ≤ maxDistance) ∨
          (0 ≤ s.t1 sqrt ray ∧ s.t1 sqrt ray ≤ maxDistance))) := by
  rw [intersectMax_eq_decide, decide_eq_true_iff]

/-- C3: for a sphere of radius `r > 0` whose center is `o + d * u` with `u` a unit
vector and `d > r`, the detailed test on the ray from `o` along `u` returns true and
reports the distance `d - r`. -/
theorem aimed_ray_distance (s : Sphere ℝ) (ray : Ray ℝ) (d : ℝ) (hitData : Hit ℝ)
    (hr : 0 < s.radius) (hu : Vec3.dot ray.direction ray.direction = 1)
    (hc : s.center = Vec3.add ray.origin (Vec3.smul d ray.direction))
    (hd : s.radius < d) :
    (s.intersect Real.sqrt ray hitData).1 = true ∧
      (s.intersect Real.sqrt ray hitData).2.distance = d - s.radius := by
  have hdisc := discriminant_aimed s ray d hu hc
  have hb : Vec3.dot (Vec3.sub ray.origin s.center) ray.direction = -d := by
    rw [hc]; exact b_aimed ray.origin ray.direction d hu
  have ht0 : s.t0 Real.sqrt ray = d - s.radius := by
    unfold Sphere.t0
    simp only [hdisc, hb, Real.sqrt_mul_self hr.le]
    ring
  have ht1 : s.t1 Real.sqrt ray = d + s.radius := by
    unfold Sphere.t1
    simp only [hdisc, hb, Real.sqrt_mul_self hr.le]
    ring
  have htrue : (s.intersect Real.sqrt ray hitData).1 = true := by
    rw [intersect_true_iff, hdisc, ht0, ht1]
    exact ⟨mul_nonneg hr.le hr.le, by linarith, by linarith⟩
  exact ⟨htrue, by rw [intersect_distance Real.sqrt s ray hitData htrue, ht0]⟩

/-- Witness for C3: center at distance 5 on the `z` axis, radius 1: the reported
distance is `5 - 1`. -/
theorem aimed_ray_distance_witness :
    ((zSphere ℝ 1 5).intersect Real.sqrt (zRay ℝ) defaultHit).1 = true ∧
      ((zSphere ℝ 1 5).intersect Real.sqrt (zRay ℝ) defaultHit).2.distance = 5 - 1 :=
  aimed_ray_distance (zSphere ℝ 1 5) (zRay ℝ) 5 defaultHit
    (by norm_num [zSphere])
    (by norm_num [zRay, Vec3.dot])
    (by norm_num [zSphere, zRay, Vec3.add, Vec3.smul])
    (by norm_num [zSphere])

/-- C6: the colour computed before scaling equals, per channel, the clamp to
`[0, 1]` of the sum over all lights of
`max(0, dot(normalize(light.position - hit.position), hit.normal)) * light.intensity * hit.color`;
this is the colour `TraceBlock` scales and writes when the closest hit is valid; and
a light whose dot product is `<= 0` leaves the accumulated colour unchanged. -/
theorem shading_contract {F : Type} [LinearOrderedField F] [FloorRing F] (sqrt : F → F)
    (lights : List (Light F)) (hit : Hit F) :
    shade sqrt lights hit = shadeSpec sqrt lights hit ∧
    (∀ (scene : Scene F) (r : Ray F),
      (closestHit sqrt scene.objects r).distance ≠ sentinel →
      traceRay sqrt scene r =
        writeColor (shadeSpec sqrt scene.lights (closestHit sqrt scene.objects r))) ∧
    (∀ (l : Light F) (finalColor : Vec3 F),
      Vec3.dot (Vec3.normalize sqrt (Vec3.sub l.position hit.position)) hit.normal ≤ 0 →
      shadeStep sqrt hit finalColor l = finalColor) := by
  have hshade : ∀ (ls : List (Light F)) (h : Hit F), shade sqrt ls h = shadeSpec sqrt ls h := by
    intro ls h
    unfold shade lightSum shadeSpec
    rw [foldl_shadeStep]
    simp only [Vec3.clamp, Vec3.splat, zero_add]
  refine ⟨hshade lights hit, ?_, ?_⟩
  · intro scene r hne
    unfold traceRay
    simp only [if_neg hne, hshade]
  · intro l fc hd
    unfold shadeStep
    simp only [gt_iff_lt, not_lt.mpr hd, if_false]

/-- Witness for C6: a light below the surface (dot product `-1`) contributes
nothing. -/
theorem shading_contract_witness :
    shadeStep Real.sqrt (originHit ℝ) (Vec3.splat 0) (zLight ℝ (-1) 2) = Vec3.splat 0 :=
  (shading_contract Real.sqrt [zLight ℝ (-1) 2] (originHit ℝ)).2.2 (zLight ℝ (-1) 2)
    (Vec3.splat 0) (by rw [dot_zLight_below]; norm_num)

/-- C7: for every hit and every list of lights, each channel written for a hit pixel
is a value in `0 .. 255` (the conversion is defined, nothing wraps), and it is 255
for every channel whose summed light contribution is at least `1`. -/
theorem shading_clamp {F : Type} [LinearOrderedField F] [FloorRing F] (sqrt : F → F)
    (lights : List (Light F)) (hit : Hit F) :
    (∃ n : Nat, (writeColor (shade sqrt lights hit)).r = some n ∧ n ≤ 255) ∧
    (∃ n : Nat, (writeColor (shade sqrt lights hit)).g = some n ∧ n ≤ 255) ∧
    (∃ n : Nat, (writeColor (shade sqrt lights hit)).b = some n ∧ n ≤ 255) ∧
    (1 ≤ (lightSum sqrt lights hit).x → (writeColor (shade sqrt lights hit)).r = some 255) ∧
    (1 ≤ (lightSum sqrt lights hit).y → (writeColor (shade sqrt lights hit)).g = some 255) ∧
    (1 ≤ (lightSum sqrt lights hit).z → (writeColor (shade sqrt lights hit)).b = some 255) := by
  have h255 : float2uchar ((1 : F) * 255) = some 255 := by
    have h := float2uchar_natCast (F := F) 255 (le_refl 255)
    rw [one_mul]
    exact_mod_cast h
  simp only [writeColor, shade, Vec3.clamp]
  refine ⟨?_, ?_, ?_, ?_, ?_, ?_⟩
  · exact float2uchar_unit _ (clampScalar_mem _).1 (clampScalar_mem _).2
  · exact float2uchar_unit _ (clampScalar_mem _).1 (clampScalar_mem _).2
  · exact float2uchar_unit _ (clampScalar_mem _).1 (clampScalar_mem _).2
  · intro h
    rw [clampScalar_of_one_le _ h, h255]
  · intro h
    rw [clampScalar_of_one_le _ h, h255]
  · intro h
    rw [clampScalar_of_one_le _ h, h255]

/-- Witness for C7: one light of intensity 2 straight above a white surface: the
summed red contribution is `2 >= 1` and the red channel written is 255. -/
theorem shading_clamp_witness :
    (writeColor (shade Real.sqrt [zLight ℝ 1 2] (originHit ℝ))).r = some 255 :=
  (shading_clamp Real.sqrt [zLight ℝ 1 2] (originHit ℝ)).2.2.2.1 (by
    unfold lightSum
    rw [foldl_shadeStep]
    simp only [List.map_cons, List.map_nil, List.sum_cons, List.sum_nil, lambert_zLight_above]
    norm_num [Vec3.splat, zLight, originHit])

/-- C8: when no sphere of the scene reports a detailed hit for the ray, the pixel
written holds the background channels times 255, converted by truncation; for the
background `(0.2, 0.2, 0.8)` it is `(51, 51, 204)`. -/
theorem background_fallback {F : Type} [LinearOrderedField F] [FloorRing F] (sqrt : F → F)
    (scene : Scene F) (r : Ray F)
    (hmiss : ∀ s ∈ scene.objects, (s.intersect sqrt r defaultHit).1 = false) :
    traceRay sqrt scene r =
        { r := float2uchar (scene.background.x * 255)
          g := float2uchar (scene.background.y * 255)
          b := float2uchar (scene.background.z * 255) } ∧
      (scene.background = ⟨0.2, 0.2, 0.8⟩ →
        traceRay sqrt scene r = { r := some 51, g := some 51, b := some 204 }) := by
  have hc := closestHit_of_all_miss sqrt r scene.objects hmiss
  have hbg : traceRay sqrt scene r = writeColor scene.background := by
    unfold traceRay
    simp only [hc]
    exact if_pos rfl
  refine ⟨by rw [hbg, writeColor], fun hb => ?_⟩
  have h51 : float2uchar ((0.2 : F) * 255) = some 51 := by
    have h := float2uchar_natCast (F := F) 51 (by norm_num)
    rw [show (0.2 : F) * 255 = ((51 : Nat) : F) by norm_num]
    exact h
  have h204 : float2uchar ((0.8 : F) * 255) = some 204 := by
    have h := float2uchar_natCast (F := F) 204 (by norm_num)
    rw [show (0.8 : F) * 255 = ((204 : Nat) : F) by norm_num]
    exact h
  rw [hbg, writeColor, hb]
  simp only [h51, h204]

/-- Witness for C8: the ray along `z` misses the only sphere of `missScene`, and the
pixel written is the background `(51, 51, 204)`. -/
theorem background_fallback_witness :
    traceRay Real.sqrt (missScene ℝ) (zRay ℝ) = { r := some 51, g := some 51, b := some 204 } :=
  (background_fallback Real.sqrt (missScene ℝ) (zRay ℝ) (by
    intro s hs
    simp only [missScene, List.mem_singleton] at hs
    rw [hs]
    exact intersect_xzSphere_false defaultHit)).2 rfl

/-! ## Ray generation -/

section RayFacts

variable {F : Type} [LinearOrderedField F] [FloorRing F]

/-- Every write of `TraceBlock` holds the colour traced for the pixel it targets,
with the reference resolution `max(width, height)`. -/
theorem TraceBlock_value (sqrt : F → F) (scene : Scene F) (bx by_ bs width height : Nat)
    (w : PixelWrite) (hw : w ∈ TraceBlock sqrt scene bx by_ bs width height) :
    w.value = tracePixel sqrt scene (max width height) w.x w.y := by
  unfold TraceBlock at hw
  simp only [List.mem_flatMap, List.mem_range] at hw
  obtain ⟨y, -, x, -, hw⟩ := hw
  split_ifs at hw with hc
  · exact absurd hw (List.not_mem_nil w)
  · rw [List.mem_singleton.mp hw]

/-- The only tile of a one-pixel image with tile size one writes the pixel `(0, 0)`. -/
theorem mem_TraceBlock_single (sqrt : F → F) (scene : Scene F) :
    ({ x := 0, y := 0, value := tracePixel sqrt scene (max 1 1) 0 0 } : PixelWrite) ∈
      TraceBlock sqrt scene 0 0 1 1 1 := by
  rw [mem_TraceBlock_iff sqrt scene 0 0 1 1 1 (by decide) (by decide)]
  exact ⟨0, by decide, 0, by decide, by decide, by decide, rfl⟩

end RayFacts

/-- C12: every pixel that `TraceBlock` writes holds the colour traced along the ray
whose origin is the camera position and whose direction is `Camera.ray(fx, fy)` with
`fx = x / res - 0.5`, `fy = -(y / res - 0.5)` and `res = max(width, height)`. -/
theorem ray_generation {F : Type} [LinearOrderedField F] [FloorRing F] (sqrt : F → F)
    (scene : Scene F) (bx by_ block_size width height : Nat) (w : PixelWrite)
    (hw : w ∈ TraceBlock sqrt scene bx by_ block_size width height) :
    ∃ r : Ray F, w.value = traceRay sqrt scene r ∧
      r = pixel2ray scene.camera (max width height) w.x w.y ∧
      r.origin = scene.camera.position ∧
      r.direction = scene.camera.ray
        ((w.x : F) / ((max width height : Nat) : F) - 0.5)
        (-((w.y : F) / ((max width height : Nat) : F) - 0.5)) := by
  refine ⟨pixel2ray scene.camera (max width height) w.x w.y, ?_, rfl, rfl, ?_⟩
  · rw [TraceBlock_value sqrt scene bx by_ block_size width height w hw]
    rfl
  · have h : (1 : F) / 2 = 0.5 := by norm_num
    simp only [pixel2ray, h]

/-- Witness for C12: the pixel `(0, 0)` of a one-pixel image. -/
theorem ray_generation_witness :
    ∃ r : Ray ℝ, tracePixel Real.sqrt (missScene ℝ) (max 1 1) 0 0 =
        traceRay Real.sqrt (missScene ℝ) r ∧
      r = pixel2ray (missScene ℝ).camera (max 1 1) 0 0 ∧
      r.origin = (missScene ℝ).camera.position ∧
      r.direction = (missScene ℝ).camera.ray
        (((0 : Nat) : ℝ) / ((max 1 1 : Nat) : ℝ) - 0.5)
        (-(((0 : Nat) : ℝ) / ((max 1 1 : Nat) : ℝ) - 0.5)) :=
  ray_generation Real.sqrt (missScene ℝ) 0 0 1 1 1
    { x := 0, y := 0, value := tracePixel Real.sqrt (missScene ℝ) (max 1 1) 0 0 }
    (mem_TraceBlock_single Real.sqrt (missScene ℝ))

/-- C19: when the detailed test returns true with distance `t`, the boolean test
returns true for every `maxDistance >= t`; and the boolean test is monotone in
`maxDistance`. -/
theorem detailed_hit_implies_visibility {F : Type} [LinearOrderedField F] (sqrt : F → F)
    (s : Sphere F) (ray : Ray F) (hitData : Hit F) :
    ((s.intersect sqrt ray hitData).1 = true →
      ∀ maxDistance : F, (s.intersect sqrt ray hitData).2.distance ≤ maxDistance →
        s.intersectMax sqrt ray maxDistance = true) ∧
    (∀ m m' : F, m ≤ m' → s.intersectMax sqrt ray m = true →
      s.intersectMax sqrt ray m' = true) := by
  refine ⟨fun h maxDistance hm => ?_, fun m m' hmm hm => ?_⟩
  · have hc := (intersect_true_iff sqrt s ray hitData).mp h
    rw [intersect_distance sqrt s ray hitData h] at hm
    rw [intersectMax_eq_decide, decide_eq_true_iff]
    exact ⟨hc.1, Or.inl ⟨hc.2.1, hm⟩⟩
  · rw [intersectMax_eq_decide, decide_eq_true_iff] at hm ⊢
    rcases hm with ⟨hd, h0 | h1⟩
    · exact ⟨hd, Or.inl ⟨h0.1, le_trans h0.2 hmm⟩⟩
    · exact ⟨hd, Or.inr ⟨h1.1, le_trans h1.2 hmm⟩⟩

/-- Witness for C19: the unit sphere at distance 5 is hit at distance 4, so it is
visible within `maxDistance = 4`. -/
theorem detailed_hit_implies_visibility_witness :
    (zSphere ℝ 1 5).intersectMax Real.sqrt (zRay ℝ) 4 = true :=
  (detailed_hit_implies_visibility Real.sqrt (zSphere ℝ 1 5) (zRay ℝ) defaultHit).1
    (intersect_zSphere_true 1 5 (by norm_num) (by norm_num) defaultHit) 4 (by
      rw [intersect_distance _ _ _ _
        (intersect_zSphere_true 1 5 (by norm_num) (by norm_num) defaultHit),
        t0_zSphere _ _ (by norm_num)]
      norm_num)

/-! ## The hit record -/

section HitFacts

variable {F : Type} [LinearOrderedField F]

/-- Appending a sphere that is missed, or hit no nearer than the current closest
hit, leaves the result of the closest-hit loop unchanged. -/
theorem closestHit_append_of_not_nearer (sqrt : F → F) (r : Ray F) (objects : List (Sphere F))
    (extra : Sphere F)
    (h : (extra.intersect sqrt r defaultHit).1 = false ∨
      (closestHit sqrt objects r).distance ≤ (extra.intersect sqrt r defaultHit).2.distance) :
    closestHit sqrt (objects ++ [extra]) r = closestHit sqrt objects r := by
  rw [closestHit_concat]
  unfold closestStep
  rw [if_neg]
  rintro ⟨h1, h2⟩
  rcases h with h | h
  · rw [h] at h1
    exact absurd h1 (by decide)
  · exact absurd h2 (not_lt.mpr h)

/-- The loop keeps the sentinel distance exactly when no sphere is hit below it. -/
theorem closestHit_distance_eq_sentinel_iff (sqrt : F → F) (r : Ray F)
    (objects : List (Sphere F)) :
    (closestHit sqrt objects r).distance = sentinel ↔
      ∀ s ∈ objects, (s.intersect sqrt r defaultHit).1 = true →
        sentinel ≤ (s.intersect sqrt r defaultHit).2.distance := by
  rcases closestHit_cases sqrt r objects with ⟨hc, hall⟩ | ⟨pre, s, post, hl, hs, hc, hlt, -, -⟩
  · exact ⟨fun _ => hall, fun _ => by rw [hc]; rfl⟩
  · constructor
    · intro h
      rw [hc] at h
      exact absurd h (ne_of_lt hlt)
    · intro hall
      have hmem : s ∈ objects := by rw [hl]; simp
      exact absurd hlt (not_lt.mpr (hall s hmem hs))

end HitFacts

section FarFacts

theorem distance_zSphere (radius dist : ℝ) (hr : 0 ≤ radius) (hd : radius ≤ dist) :
    ((zSphere ℝ radius dist).intersect Real.sqrt (zRay ℝ) defaultHit).2.distance =
      dist - radius := by
  rw [intersect_distance _ _ _ _ (intersect_zSphere_true radius dist hr hd defaultHit),
    t0_zSphere _ _ hr]

/-- Both spheres of `farObjects` are hit beyond the sentinel, so the loop keeps its
initial value. -/
theorem closestHit_farObjects :
    closestHit Real.sqrt (farObjects ℝ) (zRay ℝ) = sentinelHit := by
  have hsent : (sentinelHit : Hit ℝ).distance = 1000000000 := rfl
  simp only [closestHit, farObjects, List.foldl_cons, List.foldl_nil]
  have step1 : closestStep Real.sqrt (zRay ℝ) sentinelHit (zSphere ℝ 1 2000000000)
      = sentinelHit := by
    simp only [closestStep]
    rw [if_neg]
    rw [distance_zSphere 1 2000000000 (by norm_num) (by norm_num), hsent]
    norm_num
  rw [step1]
  simp only [closestStep]
  rw [if_neg]
  rw [distance_zSphere 1 3000000000 (by norm_num) (by norm_num), hsent]
  norm_num

end FarFacts

/-- C15: appending to the scene a sphere whose detailed test on the ray fails, or
reports a distance not smaller than that of the closest hit, leaves the closest hit
and the pixel written for the ray unchanged; the lights are not tested against the
added sphere. -/
theorem no_shadow_testing {F : Type} [LinearOrderedField F] [FloorRing F] (sqrt : F → F)
    (scene : Scene F) (r : Ray F) (extra : Sphere F)
    (h : (extra.intersect sqrt r defaultHit).1 = false ∨
      (closestHit sqrt scene.objects r).distance ≤
        (extra.intersect sqrt r defaultHit).2.distance) :
    closestHit sqrt (scene.objects ++ [extra]) r = closestHit sqrt scene.objects r ∧
      traceRay sqrt { scene with objects := scene.objects ++ [extra] } r =
        traceRay sqrt scene r := by
  have hc := closestHit_append_of_not_nearer sqrt r scene.objects extra h
  refine ⟨hc, ?_⟩
  unfold traceRay
  simp only [hc]

/-- Witness for C15: the sphere centred at `(3, 0, 5)` sits on the segment from the
hit point `(0, 0, 4)` to the light at `(6, 0, 6)` and is missed by the ray along
`z`; adding it does not change the pixel. -/
theorem no_shadow_testing_witness :
    closestHit Real.sqrt ((litScene ℝ).objects ++ [xzSphere ℝ 1 3 5]) (zRay ℝ) =
        closestHit Real.sqrt (litScene ℝ).objects (zRay ℝ) ∧
      traceRay Real.sqrt
          { litScene ℝ with objects := (litScene ℝ).objects ++ [xzSphere ℝ 1 3 5] } (zRay ℝ) =
        traceRay Real.sqrt (litScene ℝ) (zRay ℝ) :=
  no_shadow_testing Real.sqrt (litScene ℝ) (zRay ℝ) (xzSphere ℝ 1 3 5)
    (Or.inl (intersect_xzSphere_false defaultHit))

/-! ## Background or shading -/

section DecisionFacts

variable {F : Type} [LinearOrderedField F] [FloorRing F]

theorem writeColor_sample_background :
    writeColor (⟨0.2, 0.2, 0.8⟩ : Vec3 F) = { r := some 51, g := some 51, b := some 204 } := by
  have h51 : float2uchar ((0.2 : F) * 255) = some 51 := by
    rw [show (0.2 : F) * 255 = ((51 : Nat) : F) by norm_num]
    exact float2uchar_natCast 51 (by norm_num)
  have h204 : float2uchar ((0.8 : F) * 255) = some 204 := by
    rw [show (0.8 : F) * 255 = ((204 : Nat) : F) by norm_num]
    exact float2uchar_natCast 204 (by norm_num)
  simp only [writeColor, h51, h204]

/-- Without lights every shaded pixel is black. -/
theorem writeColor_shade_nil (sqrt : F → F) (h : Hit F) :
    writeColor (shade sqrt [] h) = { r := some 0, g := some 0, b := some 0 } := by
  have h0 : float2uchar ((0 : F) * 255) = some 0 := by
    rw [zero_mul]
    exact_mod_cast float2uchar_natCast (F := F) 0 (by norm_num)
  have hc : Vec3.clampScalar (0 : F) 0 1 = 0 := by
    simp [Vec3.clampScalar]
  simp only [writeColor, shade, lightSum, List.foldl_nil, Vec3.clamp, Vec3.splat, hc, h0]

theorem traceRay_of_sentinel (sqrt : F → F) (scene : Scene F) (r : Ray F)
    (h : (closestHit sqrt scene.objects r).distance = sentinel) :
    traceRay sqrt scene r = writeColor scene.background := by
  unfold traceRay
  simp only [if_pos h]

theorem traceRay_of_not_sentinel (sqrt : F → F) (scene : Scene F) (r : Ray F)
    (h : (closestHit sqrt scene.objects r).distance ≠ sentinel) :
    traceRay sqrt scene r =
      writeColor (shade sqrt scene.lights (closestHit sqrt scene.objects r)) := by
  unfold traceRay
  simp only [if_neg h]

end DecisionFacts

/-- C17, counterexample: the first sphere of `farScene` is hit by the detailed test
(at distance `2e9 - 1`), and still the pixel written for the ray is the background
`(51, 51, 204)`, not the shaded colour, which is `(0, 0, 0)` in this scene. -/
theorem background_decision_counterexample :
    zSphere ℝ 1 2000000000 ∈ (farScene ℝ).objects ∧
      ((zSphere ℝ 1 2000000000).intersect Real.sqrt (zRay ℝ) defaultHit).1 = true ∧
      traceRay Real.sqrt (farScene ℝ) (zRay ℝ) = writeColor (farScene ℝ).background ∧
      traceRay Real.sqrt (farScene ℝ) (zRay ℝ) = { r := some 51, g := some 51, b := some 204 } ∧
      writeColor (shade Real.sqrt (farScene ℝ).lights
        ((zSphere ℝ 1 2000000000).intersect Real.sqrt (zRay ℝ) defaultHit).2) =
          { r := some 0, g := some 0, b := some 0 } := by
  have hbg : traceRay Real.sqrt (farScene ℝ) (zRay ℝ) = writeColor (farScene ℝ).background := by
    apply traceRay_of_sentinel
    show (closestHit Real.sqrt (farObjects ℝ) (zRay ℝ)).distance = sentinel
    rw [closestHit_farObjects]
    rfl
  refine ⟨?_, intersect_zSphere_true 1 2000000000 (by norm_num) (by norm_num) defaultHit,
    hbg, ?_, ?_⟩
  · simp [farScene, farObjects]
  · rw [hbg]
    exact writeColor_sample_background
  · exact writeColor_shade_nil Real.sqrt _

/-- C17, amended: the pixel gets the background colour when no sphere of the scene
reports a detailed hit at a distance below the sentinel `1e9`, and it is shaded when
at least one sphere reports a detailed hit at a distance below `1e9`; the
background branch is taken exactly in the first case. -/
theorem background_decision {F : Type} [LinearOrderedField F] [FloorRing F] (sqrt : F → F)
    (scene : Scene F) (r : Ray F) :
    ((∀ s ∈ scene.objects, (s.intersect sqrt r defaultHit).1 = true →
        sentinel ≤ (s.intersect sqrt r defaultHit).2.distance) →
      traceRay sqrt scene r = writeColor scene.background) ∧
    ((∃ s ∈ scene.objects, (s.intersect sqrt r defaultHit).1 = true ∧
        (s.intersect sqrt r defaultHit).2.distance < sentinel) →
      traceRay sqrt scene r =
        writeColor (shade sqrt scene.lights (closestHit sqrt scene.objects r))) ∧
    ((closestHit sqrt scene.objects r).distance = sentinel ↔
      ∀ s ∈ scene.objects, (s.intersect sqrt r defaultHit).1 = true →
        sentinel ≤ (s.intersect sqrt r defaultHit).2.distance) := by
  have hiff := closestHit_distance_eq_sentinel_iff sqrt r scene.objects
  refine ⟨fun h => traceRay_of_sentinel sqrt scene r (hiff.mpr h), ?_, hiff⟩
  rintro ⟨s, hs, hst, hlt⟩
  apply traceRay_of_not_sentinel
  intro heq
  exact absurd hlt (not_lt.mpr (hiff.mp heq s hs hst))

/-- Witness for C17, amended: the sphere of `litScene` is hit at distance 4, and the
pixel is shaded. -/
theorem background_decision_witness :
    traceRay Real.sqrt (litScene ℝ) (zRay ℝ) =
      writeColor (shade Real.sqrt (litScene ℝ).lights
        (closestHit Real.sqrt (litScene ℝ).objects (zRay ℝ))) :=
  (background_decision Real.sqrt (litScene ℝ) (zRay ℝ)).2.1
    ⟨zSphere ℝ 1 5, by simp [litScene],
      intersect_zSphere_true 1 5 (by norm_num) (by norm_num) defaultHit, by
        rw [distance_zSphere 1 5 (by norm_num) (by norm_num)]
        norm_num [sentinel]⟩

/-! ## The Pythagorean variant -/

section PythagoreanFacts

end PythagoreanFacts

section GridFacts

/-- Without wrap-around the quotient `(w + bs - 1) / bs` is `ceil(w / bs)`. -/
theorem add_pred_div_eq_ceilDiv (w bs : Nat) (hbs : 0 < bs) :
    (w + bs - 1) / bs = ceilDiv w bs := by
  unfold ceilDiv
  have hbsQ : (0 : ℚ) < (bs : ℚ) := Nat.cast_pos.mpr hbs
  have h2 := Nat.div_add_mod (w + bs - 1) bs
  have h3 := Nat.mod_lt (w + bs - 1) hbs
  rw [Nat.mul_comm] at h2
  apply le_antisymm
  · rcases Nat.eq_zero_or_pos ((w + bs - 1) / bs) with h0 | hq
    · rw [h0]; exact Nat.zero_le _
    · obtain ⟨k, hk⟩ : ∃ k, (w + bs - 1) / bs = k + 1 := ⟨(w + bs - 1) / bs - 1, by omega⟩
      rw [hk]
      apply Nat.succ_le_of_lt
      rw [Nat.lt_ceil, lt_div_iff₀ hbsQ]
      have hnat : k * bs < w := by
        rw [hk] at h2
        have h4 : (k + 1) * bs = k * bs + bs := Nat.succ_mul k bs
        omega
      exact_mod_cast hnat
  · rw [Nat.ceil_le, div_le_iff₀ hbsQ]
    have hnat : w ≤ (w + bs - 1) / bs * bs := by omega
    exact_mod_cast hnat

/-- The grid dimension computed by `render` is `ceil(width / blockSize)` when the
tile size is positive and `width + blockSize - 1` does not wrap. -/
theorem grid_dim_eq_ceilDiv (w bs : Nat) (hbs : 0 < bs) (h : w + bs - 1 < UINT_MOD) :
    udiv (usub (uadd w bs) 1) bs = some (ceilDiv w bs) := by
  rw [udiv_dim w bs hbs h, add_pred_div_eq_ceilDiv w bs hbs]

theorem joinFront_length (w : Workers) :
    (joinFront w).threads.length = w.threads.length - 1 := by
  unfold joinFront
  cases h : w.threads with
  | nil => simp [h]
  | cons t rest => simp

theorem dispatch_length (in_threads : Nat) (hN : 1 ≤ in_threads) (w : Workers)
    (tile : Nat × Nat) (hw : w.threads.length ≤ in_threads) :
    (dispatch in_threads w tile).threads.length ≤ in_threads := by
  unfold dispatch
  by_cases h : w.threads.length ≥ in_threads
  · simp only [h, if_true, List.length_append, List.length_singleton, joinFront_length]
    omega
  · simp only [h, if_false, List.length_append, List.length_singleton]
    omega

theorem foldl_dispatch_length (in_threads : Nat) (hN : 1 ≤ in_threads)
    (ts : List (Nat × Nat)) (w : Workers) (hw : w.threads.length ≤ in_threads) :
    (ts.foldl (dispatch in_threads) w).threads.length ≤ in_threads := by
  induction ts generalizing w with
  | nil => exact hw
  | cons t rest ih =>
    rw [List.foldl_cons]
    exact ih _ (dispatch_length in_threads hN w t hw)

end GridFacts

/-- C13: the grid dimension differs from `ceil(width / blockSize)` when
`width + blockSize - 1` wraps in 32-bit arithmetic: for width 2 and tile size
`4294967295`, `render` computes `bx_dim = 0`, while `ceil(2 / 4294967295) = 1`. -/
theorem grid_dim_overflow :
    udiv (usub (uadd 2 4294967295) 1) 4294967295 = some 0 ∧ ceilDiv 2 4294967295 = 1 := by
  refine ⟨by decide, ?_⟩
  rw [← add_pred_div_eq_ceilDiv 2 4294967295 (by decide)]

/-- C16: in the branch `in_threads > 1` of `render`, after every prefix of the
dispatches the queue holds at most `in_threads` tiles and the joined tiles followed
by the queued tiles are the dispatched tiles in dispatch order; after the final loop
the queue is empty and the joined tiles are exactly the dispatched tiles, in
dispatch order, each of them once. -/
theorem bounded_fifo_dispatch (in_threads bx_dim by_dim : Nat) (hN : 1 < in_threads) :
    (∀ pre suf : List (Nat × Nat), tiles bx_dim by_dim = pre ++ suf →
      (pre.foldl (dispatch in_threads) { threads := [], joined := [] }).threads.length
          ≤ in_threads ∧
        (pre.foldl (dispatch in_threads) { threads := [], joined := [] }).joined ++
          (pre.foldl (dispatch in_threads) { threads := [], joined := [] }).threads = pre) ∧
    (drain ((tiles bx_dim by_dim).foldl (dispatch in_threads)
        { threads := [], joined := [] }).threads
      ((tiles bx_dim by_dim).foldl (dispatch in_threads)
        { threads := [], joined := [] }).joined).threads = [] ∧
    (drain ((tiles bx_dim by_dim).foldl (dispatch in_threads)
        { threads := [], joined := [] }).threads
      ((tiles bx_dim by_dim).foldl (dispatch in_threads)
        { threads := [], joined := [] }).joined).joined = tiles bx_dim by_dim ∧
    renderTiles in_threads bx_dim by_dim = tiles bx_dim by_dim ∧
    (tiles bx_dim by_dim).Nodup := by
  refine ⟨fun pre suf _ => ⟨?_, ?_⟩, (drain_joined _ _).2, ?_, renderTiles_eq _ _ _,
    nodup_tiles _ _⟩
  · exact foldl_dispatch_length in_threads (le_of_lt hN) pre _ (Nat.zero_le _)
  · have h := foldl_dispatch_all in_threads pre { threads := [], joined := [] }
    simpa using h
  · rw [(drain_joined _ _).1]
    have h := foldl_dispatch_all in_threads (tiles bx_dim by_dim) { threads := [], joined := [] }
    simpa using h

/-- Witness for C16: two workers and a `2 x 2` grid; after the first three
dispatches the queue holds at most two tiles. -/
theorem bounded_fifo_dispatch_witness :
    ([(0, 0), (0, 1), (1, 0)].foldl (dispatch 2) { threads := [], joined := [] }).threads.length
        ≤ 2 ∧
      ([(0, 0), (0, 1), (1, 0)].foldl (dispatch 2) { threads := [], joined := [] }).joined ++
        ([(0, 0), (0, 1), (1, 0)].foldl (dispatch 2) { threads := [], joined := [] }).threads =
          [(0, 0), (0, 1), (1, 0)] :=
  (bounded_fifo_dispatch 2 2 2 (by decide)).1 [(0, 0), (0, 1), (1, 0)] [(1, 1)] (by decide)

/-! ## The image after the writes -/

section ImageFacts

theorem applyWrites_concat (img : Image) (log : List PixelWrite) (w : PixelWrite) :
    applyWrites img (log ++ [w]) = writePixel (applyWrites img log) w := by
  simp [applyWrites, List.foldl_append]

/-- A pixel that no write of the log targets keeps its old value. -/
theorem applyWrites_untouched (img : Image) (log : List PixelWrite) (x y : Nat)
    (h : ∀ w ∈ log, ¬(w.x = x ∧ w.y = y)) : applyWrites img log x y = img x y := by
  induction log using List.reverseRecOn with
  | nil => rfl
  | append_singleton l w ih =>
    rw [applyWrites_concat]
    have hw : ¬(x = w.x ∧ y = w.y) := fun hc =>
      h w (List.mem_append_right l (List.mem_singleton.mpr rfl)) ⟨hc.1.symm, hc.2.symm⟩
    simp only [writePixel, if_neg hw]
    exact ih (fun v hv => h v (List.mem_append_left [w] hv))

/-- When every write of the log holds the value `g x y` for its target `(x, y)`, a
pixel targeted by some write of the log ends with the value `g x y`. -/
theorem applyWrites_touched (g : Nat → Nat → Pixel) (img : Image) (log : List PixelWrite)
    (hg : ∀ w ∈ log, w.value = g w.x w.y) (x y : Nat)
    (h : ∃ w ∈ log, w.x = x ∧ w.y = y) : applyWrites img log x y = g x y := by
  induction log using List.reverseRecOn with
  | nil =>
    obtain ⟨w, hw, -⟩ := h
    exact absurd hw (List.not_mem_nil w)
  | append_singleton l w ih =>
    rw [applyWrites_concat]
    by_cases hw : x = w.x ∧ y = w.y
    · simp only [writePixel, if_pos hw]
      rw [hg w (List.mem_append_right l (List.mem_singleton.mpr rfl)), hw.1, hw.2]
    · simp only [writePixel, if_neg hw]
      refine ih (fun v hv => hg v (List.mem_append_left [w] hv)) ?_
      obtain ⟨v, hv, hvx, hvy⟩ := h
      rcases List.mem_append.mp hv with hl | hr
      · exact ⟨v, hl, hvx, hvy⟩
      · rw [List.mem_singleton.mp hr] at hvx hvy
        exact absurd ⟨hvx.symm, hvy.symm⟩ hw

/-- Two logs with the same writes, each write holding the value `g x y` for its
target, give the same image in whatever order the writes are made. -/
theorem applyWrites_eq_of_same_writes (g : Nat → Nat → Pixel) (img : Image)
    (log₁ log₂ : List PixelWrite) (hg : ∀ w ∈ log₁, w.value = g w.x w.y)
    (hmem : ∀ w, w ∈ log₁ ↔ w ∈ log₂) : applyWrites img log₁ = applyWrites img log₂ := by
  have hg2 : ∀ w ∈ log₂, w.value = g w.x w.y := fun w hw => hg w ((hmem w).mpr hw)
  apply funext
  intro x
  apply funext
  intro y
  by_cases h : ∃ w ∈ log₁, w.x = x ∧ w.y = y
  · have h2 : ∃ w ∈ log₂, w.x = x ∧ w.y = y := by
      obtain ⟨w, hw, hxy⟩ := h
      exact ⟨w, (hmem w).mp hw, hxy⟩
    rw [applyWrites_touched g img log₁ hg x y h, applyWrites_touched g img log₂ hg2 x y h2]
  · have h1 : ∀ w ∈ log₁, ¬(w.x = x ∧ w.y = y) := fun w hw hxy => h ⟨w, hw, hxy⟩
    have h2 : ∀ w ∈ log₂, ¬(w.x = x ∧ w.y = y) := fun w hw hxy => h ⟨w, (hmem w).mpr hw, hxy⟩
    rw [applyWrites_untouched img log₁ x y h1, applyWrites_untouched img log₂ x y h2]

variable {F : Type} [LinearOrderedField F] [FloorRing F]

/-- Executing `TraceBlock` on the same tiles in another order gives the same image. -/
theorem runTiles_perm (sqrt : F → F) (scene : Scene F) (bs width height : Nat)
    (order₁ order₂ : List (Nat × Nat)) (img : Image) (hp : List.Perm order₁ order₂) :
    runTiles sqrt scene bs width height order₁ img =
      runTiles sqrt scene bs width height order₂ img := by
  unfold runTiles
  refine applyWrites_eq_of_same_writes
    (fun x y => tracePixel sqrt scene (max width height) x y) img _ _ ?_ ?_
  · intro w hw
    obtain ⟨t, -, hwt⟩ := List.mem_flatMap.mp hw
    exact TraceBlock_value sqrt scene t.1 t.2 bs width height w hwt
  · intro w
    simp only [List.mem_flatMap]
    constructor
    · rintro ⟨t, ht, hwt⟩
      exact ⟨t, hp.mem_iff.mp ht, hwt⟩
    · rintro ⟨t, ht, hwt⟩
      exact ⟨t, hp.mem_iff.mpr ht, hwt⟩

/-- The writes of one render may even be interleaved in any way: every
rearrangement of the write log gives the same image. -/
theorem render_writes_perm (sqrt : F → F) (scene : Scene F)
    (in_threads bs width height : Nat) (log log' : List PixelWrite) (img : Image)
    (hlog : render sqrt scene in_threads bs width height = some log)
    (hp : List.Perm log' log) : applyWrites img log' = applyWrites img log := by
  have hval : ∀ w ∈ log, w.value = tracePixel sqrt scene (max width height) w.x w.y := by
    unfold render at hlog
    split at hlog
    · rw [← Option.some.inj hlog]
      intro w hw
      obtain ⟨t, -, hwt⟩ := List.mem_flatMap.mp hw
      exact TraceBlock_value sqrt scene t.1 t.2 bs width height w hwt
    · exact absurd hlog (by simp)
  exact applyWrites_eq_of_same_writes
    (fun x y => tracePixel sqrt scene (max width height) x y) img log' log
    (fun w hw => hval w (hp.mem_iff.mp hw)) (fun w => hp.mem_iff)

theorem render_threads_irrelevant (sqrt : F → F) (scene : Scene F)
    (a b bs width height : Nat) :
    render sqrt scene a bs width height = render sqrt scene b bs width height := by
  unfold render
  simp only [renderTiles_eq]

/-- The log of `render` is the log of `TraceBlock` over the tiles of some grid. -/
theorem render_eq_tiles (sqrt : F → F) (scene : Scene F)
    (in_threads bs width height : Nat) (log : List PixelWrite)
    (hlog : render sqrt scene in_threads bs width height = some log) :
    ∃ bx_dim by_dim, log = (tiles bx_dim by_dim).flatMap fun t =>
      TraceBlock sqrt scene t.1 t.2 bs width height := by
  unfold render at hlog
  split at hlog
  · rename_i bx_dim by_dim _ _
    refine ⟨bx_dim, by_dim, ?_⟩
    rw [← Option.some.inj hlog, renderTiles_eq]
  · exact absurd hlog (by simp)

end ImageFacts

/-- C11: `render` with worker count 1 and with worker count `N > 1` make the same
writes: both branches run `TraceBlock` on the same sequence of tiles, and the image
obtained by executing `TraceBlock` over the tiles of the grid is the same for every
order of the tiles, namely the image that `render` produces. -/
theorem concurrency_equivalence {F : Type} [LinearOrderedField F] [FloorRing F]
    (sqrt : F → F) (scene : Scene F) (N in_blocksize width height : Nat) (_hN : 1 < N) :
    render sqrt scene 1 in_blocksize width height =
        render sqrt scene N in_blocksize width height ∧
      (∀ bx_dim by_dim : Nat,
        renderTiles 1 bx_dim by_dim = tiles bx_dim by_dim ∧
        renderTiles N bx_dim by_dim = tiles bx_dim by_dim) ∧
      (∀ (order₁ order₂ : List (Nat × Nat)) (img : Image), List.Perm order₁ order₂ →
        runTiles sqrt scene in_blocksize width height order₁ img =
          runTiles sqrt scene in_blocksize width height order₂ img) ∧
      (∀ (log : List PixelWrite) (img : Image),
        render sqrt scene N in_blocksize width height = some log →
        ∃ bx_dim by_dim : Nat, ∀ order : List (Nat × Nat),
          List.Perm order (tiles bx_dim by_dim) →
          runTiles sqrt scene in_blocksize width height order img = applyWrites img log) := by
  refine ⟨render_threads_irrelevant sqrt scene 1 N in_blocksize width height,
    fun bx_dim by_dim => ⟨renderTiles_eq 1 bx_dim by_dim, renderTiles_eq N bx_dim by_dim⟩,
    fun order₁ order₂ img hp =>
      runTiles_perm sqrt scene in_blocksize width height order₁ order₂ img hp, ?_⟩
  intro log img hlog
  obtain ⟨bx_dim, by_dim, hl⟩ := render_eq_tiles sqrt scene N in_blocksize width height log hlog
  refine ⟨bx_dim, by_dim, fun order hp => ?_⟩
  rw [runTiles_perm sqrt scene in_blocksize width height order (tiles bx_dim by_dim) img hp, hl]
  rfl

/-- Witness for C11: four workers on a `3 x 3` image with tile size 2, and the tiles
`(0, 0)`, `(1, 0)` executed in both orders. -/
theorem concurrency_equivalence_witness :
    render Real.sqrt (litScene ℝ) 1 2 3 3 = render Real.sqrt (litScene ℝ) 4 2 3 3 ∧
      runTiles Real.sqrt (litScene ℝ) 2 3 3 [(0, 0), (1, 0)] (fun _ _ => ⟨none, none, none⟩) =
        runTiles Real.sqrt (litScene ℝ) 2 3 3 [(1, 0), (0, 0)] (fun _ _ => ⟨none, none, none⟩) :=
  ⟨(concurrency_equivalence Real.sqrt (litScene ℝ) 4 2 3 3 (by decide)).1,
    (concurrency_equivalence Real.sqrt (litScene ℝ) 4 2 3 3 (by decide)).2.2.1
      [(0, 0), (1, 0)] [(1, 0), (0, 0)] (fun _ _ => ⟨none, none, none⟩)
      (List.Perm.swap (1, 0) (0, 0) [])⟩

end RayTrace
